import Mathlib

/-!
# Verification of the nginx log parsing pipeline

A shallow embedding of the repository's three Python source files:

* `app/parser.py` — the pipeline driver `parse_nginx_log`, which matches each
  input line against a fixed regular expression, validates the captured
  fields, tallies per-client request counts and per-path load times, and
  produces the final result structure;
* `app/lib/__init__.py` — `validate_entry` and `validate_ip_address`;
* `app/lib/statsd_client.py` — `start_client`.

Lines of text are modelled as `List Char`.  The Python regular expression is
embedded as an explicit backtracking matcher whose search order mirrors the
greedy, depth-first order of Python's `re` engine (`re.match` anchors at the
start of the string only, so a match consumes a *prefix* of the line).
Python's `\w` and `\d` are modelled at their ASCII meaning, which is exhaustive
for the byte-oriented log lines the program consumes.
-/

set_option maxRecDepth 100000

namespace NginxLog

/-- A `.` in a Python regex without `re.DOTALL`: any character except newline. -/
def isDotChar (c : Char) : Bool := c ≠ '\n'

/-- Python `\w` at its ASCII meaning: letters, digits and underscore. -/
def isWordChar (c : Char) : Bool := c.isAlphanum || c = '_'

/-- Python `\d` at its ASCII meaning. -/
def isDigitChar (c : Char) : Bool := c.isDigit

/-- `dropLit lit l = some r` exactly when `l = lit ++ r`. -/
def dropLit : List Char → List Char → Option (List Char)
  | [], l => some l
  | _ :: _, [] => none
  | a :: lit, c :: l => if a = c then dropLit lit l else none

/-- The first `some` produced by `f` along the list; models the order in which
a backtracking regex engine tries the candidate extents of a quantifier. -/
def firstSome (f : α → Option β) : List α → Option β
  | [] => none
  | x :: xs =>
    match f x with
    | some b => some b
    | none => firstSome f xs

/-- All splits `l = a ++ lit ++ r` where every character of `a` satisfies `P`,
ordered by increasing length of `a` (`a` may be empty).  Used for the extents
a `P*`-quantifier can take in front of the literal `lit`. -/
def splitsAsc (P : Char → Bool) (lit : List Char) : List Char → List (List Char × List Char)
  | [] =>
    match dropLit lit [] with
    | some r => [([], r)]
    | none => []
  | c :: cs =>
    (match dropLit lit (c :: cs) with
     | some r => [([], r)]
     | none => []) ++
    (if P c then (splitsAsc P lit cs).map (fun p => (c :: p.1, p.2)) else [])

/-- Splits for a greedy `P*` quantifier followed by literal `lit`: the extents
in the order a greedy engine tries them (longest `a` first). -/
def starSplits (P : Char → Bool) (lit : List Char) (l : List Char) :
    List (List Char × List Char) :=
  (splitsAsc P lit l).reverse

/-- Splits `l = a ++ lit ++ r` with `a` a nonempty run of `P`-characters,
shortest `a` first. -/
def plusSplitsAsc (P : Char → Bool) (lit : List Char) : List Char → List (List Char × List Char)
  | [] => []
  | c :: cs =>
    if P c then (splitsAsc P lit cs).map (fun p => (c :: p.1, p.2)) else []

/-- Splits for a greedy `P+` quantifier followed by literal `lit`:
`l = a ++ lit ++ r` with `a` a nonempty run of `P`-characters, longest first. -/
def plusSplits (P : Char → Bool) (lit : List Char) (l : List Char) :
    List (List Char × List Char) :=
  (plusSplitsAsc P lit l).reverse

/-- The nine named captures of the line-matching regex in `parse_nginx_log`. -/
structure RawFields where
  remote_addr : List Char
  remote_user : List Char
  date : List Char
  http_verb : List Char
  http_path : List Char
  http_version : List Char
  http_response_code : List Char
  http_response_time_milliseconds : List Char
  user_agent_string : List Char
deriving DecidableEq, Repr

/-! The matcher for
`(?P<remote_addr>.*) - (?P<remote_user>.*) \[(?P<date>.*)\] "(?P<http_verb>\w+)
(?P<http_path>.*) (?P<http_version>HTTP/\d+\.\d+)" (?P<http_response_code>\d+)
(?P<http_response_time_milliseconds>\d+) "(?P<user_agent_string>.*)"`
built one quantifier layer at a time, innermost (rightmost) first.  Each layer
returns the captures from its part of the pattern; `none` is a failed
alternative that makes the enclosing layer backtrack. -/

/-- `(?P<user_agent_string>.*)"` and then the end of the pattern (`re.match`
does not anchor the end, so any remaining input is simply left unread). -/
def mAgent (l : List Char) : Option (List Char) :=
  firstSome (fun p => some p.1) (starSplits isDotChar ['"'] l)

/-- `(?P<http_response_time_milliseconds>\d+) "` and the rest. -/
def mTime (l : List Char) : Option (List Char × List Char) :=
  firstSome (fun p => (mAgent p.2).map (fun ag => (p.1, ag)))
    (plusSplits isDigitChar (' ' :: '"' :: []) l)

/-- `(?P<http_response_code>\d+) ` and the rest. -/
def mCode (l : List Char) : Option (List Char × List Char × List Char) :=
  firstSome (fun p => (mTime p.2).map (fun tl => (p.1, tl)))
    (plusSplits isDigitChar [' '] l)

/-- `(?P<http_version>HTTP/\d+\.\d+)" ` and the rest; the capture is the whole
`HTTP/<digits>.<digits>` token. -/
def mVersion (l : List Char) : Option (List Char × List Char × List Char × List Char) :=
  match dropLit ('H' :: 'T' :: 'T' :: 'P' :: '/' :: []) l with
  | none => none
  | some r1 =>
    firstSome (fun p1 =>
        firstSome (fun p2 =>
            (mCode p2.2).map (fun ct =>
              ('H' :: 'T' :: 'T' :: 'P' :: '/' :: (p1.1 ++ '.' :: p2.1), ct)))
          (plusSplits isDigitChar ('"' :: ' ' :: []) p1.2))
      (plusSplits isDigitChar ['.'] r1)

/-- `(?P<http_path>.*) ` and the rest. -/
def mPath (l : List Char) :
    Option (List Char × List Char × List Char × List Char × List Char) :=
  firstSome (fun p => (mVersion p.2).map (fun vr => (p.1, vr)))
    (starSplits isDotChar [' '] l)

/-- `(?P<http_verb>\w+) ` and the rest. -/
def mVerb (l : List Char) :
    Option (List Char × List Char × List Char × List Char × List Char × List Char) :=
  firstSome (fun p => (mPath p.2).map (fun pr => (p.1, pr)))
    (plusSplits isWordChar [' '] l)

/-- `(?P<date>.*)] "` and the rest (the literal `] "` closes the bracketed
date and opens the quoted request). -/
def mDate (l : List Char) :
    Option (List Char × List Char × List Char × List Char × List Char × List Char × List Char) :=
  firstSome (fun p => (mVerb p.2).map (fun vr => (p.1, vr)))
    (starSplits isDotChar (']' :: ' ' :: '"' :: []) l)

/-- `(?P<remote_user>.*) [` and the rest. -/
def mUser (l : List Char) :
    Option (List Char × List Char × List Char × List Char × List Char × List Char × List Char ×
      List Char) :=
  firstSome (fun p => (mDate p.2).map (fun dr => (p.1, dr)))
    (starSplits isDotChar (' ' :: '[' :: []) l)

/-- `(?P<remote_addr>.*) - ` and the rest: the whole pattern. -/
def mAddr (l : List Char) :
    Option (List Char × List Char × List Char × List Char × List Char × List Char × List Char ×
      List Char × List Char) :=
  firstSome (fun p => (mUser p.2).map (fun ur => (p.1, ur)))
    (starSplits isDotChar (' ' :: '-' :: ' ' :: []) l)

/-- `re.match(pattern, entry)` followed by `.groupdict()`: the Line Matcher.
`none` models the `None` match object (the `AttributeError` path of the
driver). -/
def matchLine (l : List Char) : Option RawFields :=
  (mAddr l).map (fun x =>
    ⟨x.1, x.2.1, x.2.2.1, x.2.2.2.1, x.2.2.2.2.1, x.2.2.2.2.2.1, x.2.2.2.2.2.2.1,
     x.2.2.2.2.2.2.2.1, x.2.2.2.2.2.2.2.2⟩)

/-! ## Python `int()` on strings -/

/-- Whitespace stripped by Python's `int(str)`. -/
def isPySpace (c : Char) : Bool :=
  c = ' ' || c = '\t' || c = '\n' || c = '\r' || c = '\x0b' || c = '\x0c'

/-- Decimal value of a digit string, underscores skipped (the caller has
already checked the shape). -/
def digitsVal (l : List Char) : Nat :=
  l.foldl (fun n c => if c = '_' then n else 10 * n + (c.toNat - '0'.toNat)) 0

/-- After the first digit: digits, with single underscores allowed between
digits (Python 3.6+ literal grouping). -/
def digitTail : List Char → Bool
  | [] => true
  | '_' :: c :: cs => isDigitChar c && digitTail cs
  | '_' :: [] => false
  | c :: cs => isDigitChar c && digitTail cs

/-- A digit run acceptable to `int()` after sign and whitespace stripping. -/
def digitRun : List Char → Bool
  | [] => false
  | c :: cs => isDigitChar c && digitTail cs

/-- CPython `int(s)` for a `str` argument: strip whitespace, optional sign,
then grouped decimal digits; `none` models the `ValueError`. -/
def pyInt? (l : List Char) : Option Int :=
  let t := ((l.dropWhile isPySpace).reverse.dropWhile isPySpace).reverse
  match t with
  | '+' :: rest => if digitRun rest then some (digitsVal rest : Int) else none
  | '-' :: rest => if digitRun rest then some (-(digitsVal rest : Int)) else none
  | rest => if digitRun rest then some (digitsVal rest : Int) else none

/-! ## The `ipaddress` module, as used by `validate_ip_address`

`ipaddress.ip_address(s)` tries `IPv4Address(s)` and then `IPv6Address(s)`;
`ipaddress.ip_address(n)` for an integer renders as IPv4 when `n < 2^32` and
as IPv6 otherwise.  The textual grammars below follow CPython's
`_ip_int_from_string`/`_string_from_ip_int` (the pre-3.9.5 behaviour, in which
IPv4 octets may carry leading zeros, and without IPv6 scope-id suffixes). -/

/-- `l.split(sep)` on character lists. -/
def splitOn (sep : Char) : List Char → List (List Char)
  | [] => [[]]
  | c :: cs =>
    if c = sep then [] :: splitOn sep cs
    else
      match splitOn sep cs with
      | g :: gs => (c :: g) :: gs
      | [] => [[c]]

/-- One dotted-quad octet: nonempty, decimal digits, at most three characters,
value at most 255. -/
def parseOctet (l : List Char) : Option Nat :=
  if l = [] then none
  else if !l.all isDigitChar then none
  else if 3 < l.length then none
  else if digitsVal l ≤ 255 then some (digitsVal l) else none

/-- `IPv4Address(s)._ip`: the 32-bit value of a dotted-quad string. -/
def ipv4Int? (l : List Char) : Option Nat :=
  match splitOn '.' l with
  | [a, b, c, d] =>
    match parseOctet a, parseOctet b, parseOctet c, parseOctet d with
    | some a, some b, some c, some d => some (a * 16777216 + b * 65536 + c * 256 + d)
    | _, _, _, _ => none
  | _ => none

/-- `str(IPv4Address(n))`. -/
def ipv4Render (n : Nat) : List Char :=
  Nat.toDigits 10 (n / 16777216 % 256) ++ '.' ::
    (Nat.toDigits 10 (n / 65536 % 256) ++ '.' ::
      (Nat.toDigits 10 (n / 256 % 256) ++ '.' :: Nat.toDigits 10 (n % 256)))

/-- Value of a hexadecimal digit. -/
def hexVal? (c : Char) : Option Nat :=
  if '0' ≤ c ∧ c ≤ '9' then some (c.toNat - '0'.toNat)
  else if 'a' ≤ c ∧ c ≤ 'f' then some (c.toNat - 'a'.toNat + 10)
  else if 'A' ≤ c ∧ c ≤ 'F' then some (c.toNat - 'A'.toNat + 10)
  else none

/-- One IPv6 hextet: one to four hexadecimal digits. -/
def parseHextet (l : List Char) : Option Nat :=
  if l = [] then none
  else if 4 < l.length then none
  else if l.all (fun c => (hexVal? c).isSome) then
    some (l.foldl (fun n c => 16 * n + (hexVal? c).getD 0) 0)
  else none

/-- Fold the high parts, the skipped zero hextets, and the low parts into the
128-bit value; `none` when a hextet fails to parse. -/
def foldHextets (parts : List (List Char)) (acc : Nat) : Option Nat :=
  match parts with
  | [] => some acc
  | p :: rest =>
    match parseHextet p with
    | some v => foldHextets rest (acc * 65536 + v)
    | none => none

/-- `IPv6Address(s)._ip`, following CPython `_ip_int_from_string`: split on
`:`, resolve a trailing embedded dotted quad, then locate the at-most-one `::`
and assemble the hextets around it. -/
def ipv6Int? (l : List Char) : Option Nat :=
  let parts0 := splitOn ':' l
  if parts0.length < 3 then none
  else
    let withV4 : Option (List (List Char)) :=
      match parts0.getLast? with
      | none => none
      | some last =>
        if last.contains '.' then
          match ipv4Int? last with
          | some v =>
            some (parts0.dropLast ++ [Nat.toDigits 16 (v / 65536), Nat.toDigits 16 (v % 65536)])
          | none => none
        else some parts0
    match withV4 with
    | none => none
    | some parts =>
      if 9 < parts.length then none
      else
        let middle := (parts.drop 1).dropLast
        if 1 < (middle.filter (· = [])).length then none
        else
          match middle.findIdx? (· = []) with
          | some i =>
            let skipIndex := i + 1
            let partsHi := skipIndex
            let partsLo := parts.length - skipIndex - 1
            let headEmpty := parts.headD [' '] = []
            let lastEmpty := parts.getLastD [' '] = []
            let partsHi := if headEmpty then partsHi - 1 else partsHi
            let partsLo := if lastEmpty then partsLo - 1 else partsLo
            if headEmpty ∧ partsHi ≠ 0 then none
            else if lastEmpty ∧ partsLo ≠ 0 then none
            else if partsHi + partsLo + 1 > 8 then none
            else
              let skipped := 8 - (partsHi + partsLo)
              match foldHextets (parts.take partsHi) 0 with
              | none => none
              | some hi => foldHextets (parts.drop (parts.length - partsLo)) (hi * 65536 ^ skipped)
          | none =>
            if parts.length ≠ 8 then none
            else if parts.headD [' '] = [] then none
            else if parts.getLastD [' '] = [] then none
            else foldHextets parts 0

/-- First longest run of `"0"` hextets: arguments are the remaining hextets,
the index of the next one, the best `(start, length)` so far and the current
run; mirrors the loop of CPython `_compress_hextets`. -/
def bestZeroRun : List (List Char) → Nat → Nat × Nat → Nat × Nat → Nat × Nat
  | [], _, best, _ => best
  | h :: hs, i, (bs, bl), (cs, cl) =>
    if h = ['0'] then
      let cs' := if cl = 0 then i else cs
      let cl' := cl + 1
      let best' := if bl < cl' then (cs', cl') else (bs, bl)
      bestZeroRun hs (i + 1) best' (cs', cl')
    else bestZeroRun hs (i + 1) (bs, bl) (0, 0)

/-- CPython `_compress_hextets`: replace the first longest run (of length at
least two) of zero hextets by an empty part, padding the ends so that the
final `:`-join produces the `::`. -/
def compressHextets (hs : List (List Char)) : List (List Char) :=
  let (bs, bl) := bestZeroRun hs 0 (0, 0) (0, 0)
  if 1 < bl then
    let hs' := if bs + bl = hs.length then hs ++ [[]] else hs
    let hs'' := hs'.take bs ++ [] :: hs'.drop (bs + bl)
    if bs = 0 then [] :: hs'' else hs''
  else hs

/-- `str(IPv6Address(n))`: the eight hextets in lowercase hex, `::`-compressed. -/
def ipv6Render (n : Nat) : List Char :=
  let hextets := (List.range 8).map (fun i => Nat.toDigits 16 (n / 65536 ^ (7 - i) % 65536))
  List.intercalate [':'] (compressHextets hextets)

/-- `lib.validate_ip_address`: `int(ipaddress.ip_address(address))` and then
`str(ipaddress.ip_address(ip_int))`; `none` models the `False` returned when
the bare `except:` catches the parse failure.  An integer below `2^32` is
re-rendered as an `IPv4Address` — even when the input was written in IPv6
notation. -/
def validate_ip_address (l : List Char) : Option (List Char) :=
  match (match ipv4Int? l with | some n => some n | none => ipv6Int? l) with
  | none => none
  | some n => some (if n < 4294967296 then ipv4Render n else ipv6Render n)

/-! ## `datetime.datetime.strptime(s, '%d/%b/%Y:%H:%M:%S %z')`

The regex `_strptime` builds for this format, followed by the range checks the
`datetime` constructor performs (day against the month length, seconds below
60, timezone offset strictly below 24 hours).  Month names are the C-locale
abbreviations, matched case-insensitively. -/

/-- The lowercased three-letter month abbreviations, in month order. -/
def monthAbbrs : List (List Char) :=
  ["jan".toList, "feb".toList, "mar".toList, "apr".toList, "may".toList, "jun".toList,
   "jul".toList, "aug".toList, "sep".toList, "oct".toList, "nov".toList, "dec".toList]

def isLeapYear (y : Nat) : Bool := y % 4 = 0 && (y % 100 ≠ 0 || y % 400 = 0)

def daysInMonth (y m : Nat) : Nat :=
  if m = 2 then (if isLeapYear y then 29 else 28)
  else if m = 4 ∨ m = 6 ∨ m = 9 ∨ m = 11 then 30
  else 31

/-- A one-or-two digit numeric field (the `%d`/`%H`/`%M`/`%S` alternations all
have this shape once the following literal is a non-digit): consume the
maximal digit run, which must have length one or two and value at most `hi`
(and, for `%d`, at least `lo`). -/
def readNum2 (lo hi : Nat) (l : List Char) : Option (Nat × List Char) :=
  let run := l.takeWhile isDigitChar
  let rest := l.dropWhile isDigitChar
  if run.length = 1 ∨ run.length = 2 then
    let n := digitsVal run
    if lo ≤ n ∧ n ≤ hi then some (n, rest) else none
  else none

/-- The `%z` directive (Python 3.7 form), which here ends the format string:
`Z`, or `±HHMM` with optional colons, optional seconds and optional fractional
seconds; the whole remaining input must be consumed (`strptime` rejects
unconverted trailing data).  Returns the absolute offset in seconds. -/
def readTz (l : List Char) : Option Nat :=
  match l with
  | ['Z'] => some 0
  | s :: h1 :: h2 :: rest =>
    if (s = '+' ∨ s = '-') ∧ isDigitChar h1 ∧ isDigitChar h2 then
      let hh := digitsVal [h1, h2]
      let rest' := match rest with
        | ':' :: r => some r
        | r => some r
      match rest' with
      | some (m1 :: m2 :: rest2) =>
        if ('0' ≤ m1 ∧ m1 ≤ '5') ∧ isDigitChar m2 then
          let mm := digitsVal [m1, m2]
          match rest2 with
          | [] => some (hh * 3600 + mm * 60)
          | _ =>
            let rest3 := match rest2 with
              | ':' :: r => r
              | r => r
            match rest3 with
            | s1 :: s2 :: rest4 =>
              if ('0' ≤ s1 ∧ s1 ≤ '5') ∧ isDigitChar s2 then
                let ss := digitsVal [s1, s2]
                match rest4 with
                | [] => some (hh * 3600 + mm * 60 + ss)
                | '.' :: frac =>
                  if frac ≠ [] ∧ frac.length ≤ 6 ∧ frac.all isDigitChar then
                    some (hh * 3600 + mm * 60 + ss)
                  else none
                | _ => none
              else none
            | _ => none
        else none
      | _ => none
    else none
  | _ => none

/-- The date check of `validate_entry`: does
`datetime.strptime(s, '%d/%b/%Y:%H:%M:%S %z')` succeed? -/
def valid_date (l : List Char) : Bool :=
  match readNum2 1 31 l with
  | none => false
  | some (day, rest) =>
    match rest with
    | '/' :: b1 :: b2 :: b3 :: '/' :: y1 :: y2 :: y3 :: y4 :: ':' :: rest2 =>
      match monthAbbrs.findIdx? (· = [b1.toLower, b2.toLower, b3.toLower]) with
      | none => false
      | some mIdx =>
        let month := mIdx + 1
        if isDigitChar y1 ∧ isDigitChar y2 ∧ isDigitChar y3 ∧ isDigitChar y4 then
          let year := digitsVal [y1, y2, y3, y4]
          match readNum2 0 23 rest2 with
          | some (_hour, ':' :: rest3) =>
            match readNum2 0 59 rest3 with
            | some (_minute, ':' :: rest4) =>
              match readNum2 0 61 rest4 with
              | some (second, ' ' :: rest5) =>
                match readTz rest5 with
                | some off =>
                  1 ≤ year ∧ day ≤ daysInMonth year month ∧ second ≤ 59 ∧ off < 86400
                | none => false
              | _ => false
            | _ => false
          | _ => false
        else false
    | _ => false

/-! ## `urllib.parse.unquote`

Percent-escapes are decoded at the byte level; maximal runs of decoded bytes
are then UTF-8-decoded with `errors='replace'` (each maximal invalid subpart
becomes one U+FFFD).  Characters not part of a valid `%XX` escape pass
through unchanged. -/

/-- Split the input into literal characters and `%XX`-decoded bytes. -/
def pctSegs : List Char → List (Char ⊕ Nat)
  | [] => []
  | '%' :: a :: b :: rest =>
    match hexVal? a, hexVal? b with
    | some x, some y => Sum.inr (16 * x + y) :: pctSegs rest
    | _, _ => Sum.inl '%' :: pctSegs (a :: b :: rest)
  | c :: rest => Sum.inl c :: pctSegs rest

/-- Is `b` a UTF-8 continuation byte? -/
def isCont (b : Nat) : Bool := 0x80 ≤ b ∧ b ≤ 0xBF

/-- UTF-8 decoding with U+FFFD replacement, fuelled by the list length (every
step consumes at least one byte). -/
def utf8DecodeF : Nat → List Nat → List Char
  | 0, _ => []
  | _, [] => []
  | fuel + 1, b :: bs =>
    if b < 0x80 then Char.ofNat b :: utf8DecodeF fuel bs
    else if 0xC2 ≤ b ∧ b ≤ 0xDF then
      match bs with
      | b1 :: bs' =>
        if isCont b1 then Char.ofNat ((b - 0xC0) * 64 + (b1 - 0x80)) :: utf8DecodeF fuel bs'
        else '�' :: utf8DecodeF fuel bs
      | [] => ['�']
    else if 0xE0 ≤ b ∧ b ≤ 0xEF then
      match bs with
      | b1 :: bs' =>
        let firstOk : Bool :=
          if b = 0xE0 then 0xA0 ≤ b1 ∧ b1 ≤ 0xBF
          else if b = 0xED then 0x80 ≤ b1 ∧ b1 ≤ 0x9F
          else isCont b1
        if firstOk then
          match bs' with
          | b2 :: bs'' =>
            if isCont b2 then
              Char.ofNat ((b - 0xE0) * 4096 + (b1 - 0x80) * 64 + (b2 - 0x80)) ::
                utf8DecodeF fuel bs''
            else '�' :: utf8DecodeF fuel bs'
          | [] => ['�']
        else '�' :: utf8DecodeF fuel bs
      | [] => ['�']
    else if 0xF0 ≤ b ∧ b ≤ 0xF4 then
      match bs with
      | b1 :: bs' =>
        let firstOk : Bool :=
          if b = 0xF0 then 0x90 ≤ b1 ∧ b1 ≤ 0xBF
          else if b = 0xF4 then 0x80 ≤ b1 ∧ b1 ≤ 0x8F
          else isCont b1
        if firstOk then
          match bs' with
          | b2 :: bs'' =>
            if isCont b2 then
              match bs'' with
              | b3 :: bs3 =>
                if isCont b3 then
                  Char.ofNat ((b - 0xF0) * 262144 + (b1 - 0x80) * 4096 + (b2 - 0x80) * 64 +
                    (b3 - 0x80)) :: utf8DecodeF fuel bs3
                else '�' :: utf8DecodeF fuel bs''
              | [] => ['�']
            else '�' :: utf8DecodeF fuel bs'
          | [] => ['�']
        else '�' :: utf8DecodeF fuel bs
      | [] => ['�']
    else '�' :: utf8DecodeF fuel bs

def utf8Decode (bs : List Nat) : List Char := utf8DecodeF bs.length bs

/-- Join the segments, decoding maximal byte runs (`acc` holds the reversed
current run). -/
def unquoteAux : List (Char ⊕ Nat) → List Nat → List Char
  | [], acc => utf8Decode acc.reverse
  | Sum.inl c :: rest, acc => utf8Decode acc.reverse ++ c :: unquoteAux rest []
  | Sum.inr b :: rest, acc => unquoteAux rest (b :: acc)

/-- `urllib.parse.unquote` with the default UTF-8 encoding and
`errors='replace'`. -/
def unquote (l : List Char) : List Char := unquoteAux (pctSegs l) []

/-! ## `lib.validate_entry`

The Python function receives the `groupdict()` of a successful match and
mutates it in place: `remote_addr` is overwritten with the result of
`validate_ip_address` (so with `False`, modelled as `none`, on address
failure), `http_path` with the decoded query-stripped path, and
`http_response_time_milliseconds` with its `int()` coercion.  It returns
either `False` or the same (mutated) dictionary.  The embedding makes the
final dictionary state explicit: `validate_entry f = (ok, e)` where `ok` says
whether the dictionary (rather than `False`) was returned and `e` is the
state of the dictionary after the call. -/

/-- A value held in the `http_response_time_milliseconds` slot: the raw string
capture, or the integer the function coerces it to. -/
inductive PyVal where
  | str (s : List Char)
  | int (n : Int)
deriving DecidableEq, Repr

/-- The state of the entry dictionary (`remote_addr = none` models the Python
value `False` that the failure path stores there). -/
structure Entry where
  remote_addr : Option (List Char)
  remote_user : List Char
  date : List Char
  http_verb : List Char
  http_path : List Char
  http_version : List Char
  http_response_code : List Char
  http_response_time_milliseconds : PyVal
  user_agent_string : List Char
deriving DecidableEq, Repr

/-- The dictionary as produced by `groupdict()`, before any mutation. -/
def RawFields.toEntry (f : RawFields) : Entry :=
  ⟨some f.remote_addr, f.remote_user, f.date, f.http_verb, f.http_path, f.http_version,
   f.http_response_code, PyVal.str f.http_response_time_milliseconds, f.user_agent_string⟩

/-- The fixed verb list of `validate_entry`. -/
def httpVerbs : List (List Char) :=
  ["CONNECT".toList, "DELETE".toList, "GET".toList, "HEAD".toList, "OPTIONS".toList,
   "PATCH".toList, "POST".toList, "PUT".toList, "TRACE".toList]

/-- The response-code check:
`int(s) in range(100, 600) and len(s) == 3` with a failing `int()` also
rejecting. -/
def response_code_ok (l : List Char) : Bool :=
  match pyInt? l with
  | none => false
  | some n => 100 ≤ n ∧ n < 600 ∧ l.length = 3

/-- The path normalization: `unquote(p).split('?')[0]`. -/
def normalize_path (l : List Char) : List Char := (unquote l).takeWhile (· ≠ '?')

/-- `lib.validate_entry` on a `groupdict()` result. -/
def validate_entry (f : RawFields) : Bool × Entry :=
  let addr := validate_ip_address f.remote_addr
  let e1 : Entry := { f.toEntry with remote_addr := addr }
  match addr with
  | none => (false, e1)
  | some _ =>
    if ¬ valid_date f.date then (false, e1)
    else if f.http_verb ∉ httpVerbs then (false, e1)
    else
      let e2 : Entry := { e1 with http_path := normalize_path f.http_path }
      if ¬ response_code_ok f.http_response_code then (false, e2)
      else
        match pyInt? f.http_response_time_milliseconds with
        | none => (false, e2)
        | some n =>
          let e3 : Entry := { e2 with http_response_time_milliseconds := PyVal.int n }
          if n < 0 then (false, e3) else (true, e3)

/-! ## `lib.statsd_client.start_client` -/

/-- The exceptions the glue code can raise while starting the metrics client. -/
inductive PyError where
  | attributeError
  | indexError
deriving DecidableEq, Repr

/-- The statsd client object (host and port as taken from the environment;
`prefix` is the constant `'metric'`). -/
structure StatsClient where
  host : List Char
  port : List Char
deriving DecidableEq, Repr

/-- `start_client`: `os.getenv('STATSD_SERVER').split(':')`.  With the
variable unset, `os.getenv` returns `None` and `None.split` raises
`AttributeError`; with no `:` in the value, `statsd_server[1]` raises
`IndexError`.  Neither exception is handled anywhere in the program. -/
def start_client (env : Option (List Char)) : Except PyError StatsClient :=
  match env with
  | none => Except.error PyError.attributeError
  | some s =>
    match splitOn ':' s with
    | host :: port :: _ => Except.ok ⟨host, port⟩
    | _ => Except.error PyError.indexError

/-! ## The pipeline driver `parse_nginx_log` -/

/-- The mutable state of the per-line loop: the three counters and the two
insertion-ordered dictionaries. -/
structure PipeState where
  processed : Nat
  ok : Nat
  failed : Nat
  nginx_ips : List (List Char × Nat)
  url_load_times : List (List Char × Nat × Int)
deriving DecidableEq, Repr

/-- `nginx_ips` update: `if nginx_ips.get(addr): nginx_ips[addr] += 1 else:
nginx_ips[addr] = 1`.  A present key keeps its dictionary position; an absent
key is appended.  (`get` returning the falsy `0` would re-store `1`; counts
are never `0`, but the model keeps the truthiness test.) -/
def bumpIp : List (List Char × Nat) → List Char → List (List Char × Nat)
  | [], k => [(k, 1)]
  | (k', v) :: rest, k =>
    if k' = k then (k', if v = 0 then 1 else v + 1) :: rest
    else (k', v) :: bumpIp rest k

/-- `url_load_times` update: increment `count` and add to `total_ms_load_time`
when the path is present, else create `{'count': 1, 'total_ms_load_time': t}`. -/
def addTime : List (List Char × Nat × Int) → List Char → Int → List (List Char × Nat × Int)
  | [], p, t => [(p, 1, t)]
  | (p', c, tt) :: rest, p, t =>
    if p' = p then (p', c + 1, tt + t) :: rest
    else (p', c, tt) :: addTime rest p t

/-- The integer now held by the response-time slot (defined on every entry;
the success path of `validate_entry` always stores `PyVal.int`). -/
def Entry.timeMs (e : Entry) : Int :=
  match e.http_response_time_milliseconds with
  | PyVal.int n => n
  | PyVal.str _ => 0

/-- One iteration of the `for entry in open(...)` loop: count the line, try
the regex, try `validate_entry`; a failure of either counts the line as
failed, a success counts it as ok and feeds both dictionaries. -/
def processLine (st : PipeState) (line : List Char) : PipeState :=
  let st := { st with processed := st.processed + 1 }
  match matchLine line with
  | none => { st with failed := st.failed + 1 }
  | some raw =>
    match validate_entry raw with
    | (false, _) => { st with failed := st.failed + 1 }
    | (true, e) =>
      { st with
        ok := st.ok + 1
        nginx_ips := bumpIp st.nginx_ips (e.remote_addr.getD [])
        url_load_times := addTime st.url_load_times e.http_path e.timeMs }

/-- Stable insertion into a descending list: `x` goes before the first
element it strictly beats, hence after every earlier element with an equal
key. -/
def insOne (gt : γ → γ → Bool) (x : γ) : List γ → List γ
  | [] => [x]
  | y :: l => if gt x y then x :: y :: l else y :: insOne gt x l

/-- Stable descending sort (insertion sort).  Python's `sorted(...,
key=lambda x: x[1], reverse=True)` is a stable descending sort, and a stable
sort's output is determined by sortedness + stability + permutation, so any
stable implementation is a faithful model. -/
def stableSortDesc (gt : γ → γ → Bool) (l : List γ) : List γ :=
  l.foldl (fun acc x => insOne gt x acc) []

/-- `round(total / count / 1000, 2)` expressed as an integer number of
hundredths of a second: round-half-to-even of the exact rational
`total / (10 * count)`.  (CPython applies `round` to the IEEE double
`total/count/1000`; on values whose decimal half-way points are not exactly
representable in binary the float result can differ — the spec leaves the
rounding mode open, and this model fixes the exact-arithmetic
round-half-to-even reading.) -/
def avgHundredths (total : Int) (count : Nat) : Int :=
  let q : Int := 10 * count
  let f := Int.fdiv total q
  let r := total - f * q
  if 2 * r < q then f
  else if q < 2 * r then f + 1
  else if f % 2 = 0 then f else f + 1

/-- The final results structure (`ParserResults` in the source); the two
top-N fields are the insertion-ordered dictionaries built from the sorted,
truncated items, with path averages in hundredths of a second. -/
structure ParserResults where
  total_number_of_lines_processed : Nat
  total_number_of_lines_ok : Nat
  total_number_of_lines_failed : Nat
  top_client_ips : List (List Char × Nat)
  top_path_avg_seconds : List (List Char × Int)
deriving DecidableEq, Repr

/-- The loop plus the aggregation epilogue of `parse_nginx_log`: everything
up to (not including) the `start_client()` call. -/
def parse_core (lines : List (List Char)) (maxIps maxPaths : Nat) : ParserResults :=
  let st := lines.foldl processLine ⟨0, 0, 0, [], []⟩
  let topIps := (stableSortDesc (fun a b => decide (b.2 < a.2)) st.nginx_ips).take maxIps
  let avgs := st.url_load_times.map (fun p => (p.1, avgHundredths p.2.2 p.2.1))
  let topPaths := (stableSortDesc (fun a b => decide (b.2 < a.2)) avgs).take maxPaths
  ⟨st.processed, st.ok, st.failed, topIps, topPaths⟩

/-- The whole of `parse_nginx_log`: the core, then `start_client()` and the
two `incr` calls (plain UDP sends, which cannot raise), then `return results`.
An exception from `start_client` propagates and the function never returns. -/
def parse_nginx_log (env : Option (List Char)) (lines : List (List Char))
    (maxIps maxPaths : Nat) : Except PyError ParserResults :=
  let results := parse_core lines maxIps maxPaths
  match start_client env with
  | Except.error e => Except.error e
  | Except.ok _ => Except.ok results

instance : DecidableEq (Except PyError ParserResults) := fun a b =>
  match a, b with
  | Except.error e, Except.error e' =>
    if h : e = e' then isTrue (by rw [h]) else isFalse (by intro hc; cases hc; exact h rfl)
  | Except.ok r, Except.ok r' =>
    if h : r = r' then isTrue (by rw [h]) else isFalse (by intro hc; cases hc; exact h rfl)
  | Except.error _, Except.ok _ => isFalse (by intro hc; cases hc)
  | Except.ok _, Except.error _ => isFalse (by intro hc; cases hc)

/-! ## Declarative companions used to state the claims -/

/-- Re-assemble a line from captured fields, in the shape of the structural
pattern `<addr> - <user> [<date>] "<VERB> <path> <version>" <code> <time>
"<agent>"` (right-nested, matching the decomposition order of the matcher). -/
def renderRaw (f : RawFields) : List Char :=
  f.remote_addr ++ ' ' :: '-' :: ' ' ::
    (f.remote_user ++ ' ' :: '[' ::
      (f.date ++ ']' :: ' ' :: '"' ::
        (f.http_verb ++ ' ' ::
          (f.http_path ++ ' ' ::
            (f.http_version ++ '"' :: ' ' ::
              (f.http_response_code ++ ' ' ::
                (f.http_response_time_milliseconds ++ ' ' :: '"' ::
                  (f.user_agent_string ++ ['"']))))))))

/-- The shape `HTTP/<digits>.<digits>` required of the version capture. -/
def isHttpVersion (v : List Char) : Prop :=
  ∃ d1 d2, v = 'H' :: 'T' :: 'T' :: 'P' :: '/' :: (d1 ++ '.' :: d2) ∧
    d1 ≠ [] ∧ d1.all isDigitChar = true ∧ d2 ≠ [] ∧ d2.all isDigitChar = true

/-- The per-capture constraints of the structural pattern: the `.*` captures
contain no newline, the verb is a nonempty word, code and time are nonempty
digit runs, and the version has the `HTTP/d.d` shape. -/
def goodFields (f : RawFields) : Prop :=
  f.remote_addr.all isDotChar = true ∧ f.remote_user.all isDotChar = true ∧
  f.date.all isDotChar = true ∧ f.http_verb ≠ [] ∧ f.http_verb.all isWordChar = true ∧
  f.http_path.all isDotChar = true ∧ isHttpVersion f.http_version ∧
  f.http_response_code ≠ [] ∧ f.http_response_code.all isDigitChar = true ∧
  f.http_response_time_milliseconds ≠ [] ∧
  f.http_response_time_milliseconds.all isDigitChar = true ∧
  f.user_agent_string.all isDotChar = true

/-- The stream of validated entries `(remote_addr, http_path, time_ms)` in
input order: the lines that pass both the matcher and the validator. -/
def okEntries (lines : List (List Char)) : List (List Char × List Char × Int) :=
  lines.filterMap (fun l =>
    match matchLine l with
    | none => none
    | some raw =>
      match validate_entry raw with
      | (false, _) => none
      | (true, e) => some (e.remote_addr.getD [], e.http_path, e.timeMs))

/-- Number of entries with a given path in an entry stream. -/
def countOf (es : List (List Char × List Char × Int)) (p : List Char) : Nat :=
  (es.filter (fun x => x.2.1 = p)).length

/-- Sum of the response times of the entries with a given path. -/
def totalOf (es : List (List Char × List Char × Int)) (p : List Char) : Int :=
  ((es.filter (fun x => x.2.1 = p)).map (fun x => x.2.2)).sum

/-- Number of valid lines with the given path, over a whole input. -/
def pathCount (lines : List (List Char)) (p : List Char) : Nat :=
  countOf (okEntries lines) p

/-- Cumulative milliseconds of the valid lines with the given path. -/
def pathTotal (lines : List (List Char)) (p : List Char) : Int :=
  totalOf (okEntries lines) p

/-- The client addresses of the valid lines, in input order. -/
def okClients (lines : List (List Char)) : List (List Char) :=
  (okEntries lines).map (fun x => x.1)

/-- The keys of the client tally. -/
def ipKeys (l : List (List Char × Nat)) : List (List Char) := l.map (fun x => x.1)

/-- The keys of the path tally. -/
def pathKeys (l : List (List Char × Nat × Int)) : List (List Char) := l.map (fun x => x.1)

/-- First-match lookup in the path tally, `(0, 0)` when absent. -/
def tallyGet : List (List Char × Nat × Int) → List Char → Nat × Int
  | [], _ => (0, 0)
  | (p', c, t) :: rest, p => if p' = p then (c, t) else tallyGet rest p

/-- Relation between the path tally and the stream of entries observed so
far: keys are unique, each lookup returns exactly the count and cumulative
time of that path in the stream, and present keys have been observed. -/
def PathInv (tal : List (List Char × Nat × Int))
    (es : List (List Char × List Char × Int)) : Prop :=
  (pathKeys tal).Nodup ∧ (∀ p, tallyGet tal p = (countOf es p, totalOf es p)) ∧
  (∀ p, p ∈ pathKeys tal → countOf es p ≠ 0)

/-- Relation between the client tally's keys and the clients observed so
far: keys are unique and are exactly the distinct observed addresses. -/
def IpKeysInv (tal : List (List Char × Nat)) (cs : List (List Char)) : Prop :=
  (ipKeys tal).Nodup ∧ (ipKeys tal).toFinset = cs.toFinset

/-- The paths of the valid lines, in input order. -/
def okPaths (lines : List (List Char)) : List (List Char) :=
  (okEntries lines).map (fun x => x.2.1)

/-- A concrete structurally-matched record used to instantiate the
field-validation theorems: non-canonical address, encoded path with query. -/
def sampleRaw : RawFields :=
  ⟨"192.168.001.001".toList, "-".toList, "01/Jan/2020:10:00:00 +0000".toList,
   "GET".toList, "/a%20b?x=1".toList, "HTTP/1.1".toList, "200".toList, "5".toList,
   "ua".toList⟩

/-- A valid log line for `/a` with a 500 ms response time. -/
def lineA : List Char :=
  "10.0.0.1 - - [01/Jan/2020:10:00:00 +0000] \"GET /a HTTP/1.1\" 200 500 \"ua\"".toList

/-- The same client and path with a 1500 ms response time. -/
def lineB : List Char :=
  "10.0.0.1 - - [01/Jan/2020:10:00:01 +0000] \"GET /a HTTP/1.1\" 200 1500 \"ua\"".toList

/-! ## Lemmas about the matcher combinators -/

theorem dropLit_eq (lit : List Char) :
    ∀ l r, dropLit lit l = some r ↔ l = lit ++ r := by
  induction lit with
  | nil => intro l r; simp [dropLit]
  | cons a lit ih =>
    intro l r
    cases l with
    | nil => simp [dropLit]
    | cons c cs =>
      by_cases h : a = c
      · subst h
        simp [dropLit, ih]
      · simp [dropLit, h]
        intro h1
        exact absurd h1.symm h

theorem mem_splitsAsc (P : Char → Bool) (lit : List Char) :
    ∀ (l a r : List Char),
      (a, r) ∈ splitsAsc P lit l ↔ l = a ++ (lit ++ r) ∧ a.all P = true := by
  intro l
  induction l with
  | nil =>
    intro a r
    cases lit with
    | cons x xs =>
      simp only [splitsAsc, dropLit, List.not_mem_nil, false_iff, not_and]
      intro h1
      exact absurd h1 (by cases a <;> simp)
    | nil =>
      simp only [splitsAsc, dropLit, List.mem_singleton, Prod.mk.injEq, List.nil_append]
      constructor
      · rintro ⟨rfl, rfl⟩
        simp
      · rintro ⟨h1, _⟩
        cases a with
        | nil => simp_all
        | cons y ys => simp at h1
  | cons c cs ih =>
    intro a r
    simp only [splitsAsc, List.mem_append]
    constructor
    · intro h
      cases h with
      | inl h =>
        cases hd : dropLit lit (c :: cs) with
        | none => rw [hd] at h; cases h
        | some r' =>
          rw [hd] at h
          simp at h
          obtain ⟨rfl, rfl⟩ := h
          rw [dropLit_eq] at hd
          exact ⟨by simpa using hd, rfl⟩
      | inr h =>
        by_cases hp : P c
        · rw [if_pos hp] at h
          simp only [List.mem_map, Prod.mk.injEq] at h
          obtain ⟨⟨a', r'⟩, hmem, ha, hr⟩ := h
          obtain ⟨heq, hall⟩ := (ih a' r').mp hmem
          subst ha; subst hr
          refine ⟨by simp [heq], ?_⟩
          simp [List.all_cons, hp, hall]
        · rw [if_neg hp] at h; cases h
    · rintro ⟨heq, hall⟩
      cases a with
      | nil =>
        left
        simp at heq
        have : dropLit lit (c :: cs) = some r := (dropLit_eq _ _ _).mpr (by simpa using heq)
        rw [this]
        simp
      | cons x xs =>
        right
        simp only [List.cons_append, List.cons.injEq] at heq
        obtain ⟨rfl, hcs⟩ := heq
        simp only [List.all_cons, Bool.and_eq_true] at hall
        rw [if_pos hall.1]
        simp only [List.mem_map, Prod.mk.injEq]
        exact ⟨(xs, r), (ih xs r).mpr ⟨hcs, hall.2⟩, rfl, rfl⟩

theorem mem_plusSplitsAsc (P : Char → Bool) (lit : List Char) (l a r : List Char) :
    (a, r) ∈ plusSplitsAsc P lit l ↔
      l = a ++ (lit ++ r) ∧ a ≠ [] ∧ a.all P = true := by
  cases l with
  | nil =>
    simp only [plusSplitsAsc, List.not_mem_nil, false_iff, not_and]
    intro h
    cases a <;> simp_all
  | cons c cs =>
    simp only [plusSplitsAsc]
    by_cases hp : P c
    · rw [if_pos hp]
      simp only [List.mem_map, Prod.mk.injEq]
      constructor
      · rintro ⟨⟨a', r'⟩, hmem, ha, hr⟩
        obtain ⟨heq, hall⟩ := (mem_splitsAsc P lit cs a' r').mp hmem
        subst ha; subst hr
        exact ⟨by simp [heq], by simp, by simp [List.all_cons, hp, hall]⟩
      · rintro ⟨heq, hne, hall⟩
        cases a with
        | nil => exact absurd rfl hne
        | cons x xs =>
          simp only [List.cons_append, List.cons.injEq] at heq
          obtain ⟨rfl, hcs⟩ := heq
          simp only [List.all_cons, Bool.and_eq_true] at hall
          exact ⟨(xs, r), (mem_splitsAsc P lit cs xs r).mpr ⟨hcs, hall.2⟩, rfl, rfl⟩
    · rw [if_neg hp]
      simp only [List.not_mem_nil, false_iff, not_and]
      intro heq
      cases a with
      | nil => simp
      | cons x xs =>
        simp only [List.cons_append, List.cons.injEq] at heq
        intro _
        simp [List.all_cons, heq.1 ▸ hp]

theorem mem_starSplits (P : Char → Bool) (lit : List Char) (l a r : List Char) :
    (a, r) ∈ starSplits P lit l ↔ l = a ++ (lit ++ r) ∧ a.all P = true := by
  rw [starSplits, List.mem_reverse]
  exact mem_splitsAsc P lit l a r

theorem mem_plusSplits (P : Char → Bool) (lit : List Char) (l a r : List Char) :
    (a, r) ∈ plusSplits P lit l ↔
      l = a ++ (lit ++ r) ∧ a ≠ [] ∧ a.all P = true := by
  rw [plusSplits, List.mem_reverse]
  exact mem_plusSplitsAsc P lit l a r

theorem firstSome_eq_some {f : α → Option β} :
    ∀ {xs : List α} {b : β}, firstSome f xs = some b → ∃ x ∈ xs, f x = some b := by
  intro xs
  induction xs with
  | nil => intro b h; cases h
  | cons x xs ih =>
    intro b h
    cases hx : f x with
    | some b' =>
      rw [firstSome, hx] at h
      simp at h
      exact ⟨x, List.mem_cons_self x xs, by rw [hx, h]⟩
    | none =>
      rw [firstSome, hx] at h
      simp at h
      obtain ⟨y, hy, hfy⟩ := ih h
      exact ⟨y, List.mem_cons_of_mem _ hy, hfy⟩

theorem firstSome_isSome {f : α → Option β} :
    ∀ {xs : List α} {x : α}, x ∈ xs → (f x).isSome → (firstSome f xs).isSome := by
  intro xs
  induction xs with
  | nil => intro x h; cases h
  | cons y ys ih =>
    intro x hmem hfx
    cases hy : f y with
    | some b => simp [firstSome, hy]
    | none =>
      rw [firstSome, hy]
      rcases List.mem_cons.mp hmem with rfl | h
      · rw [hy] at hfx; cases hfx
      · exact ih h hfx

/-! ## Soundness of the matcher layers: a successful match decomposes the
input as a prefix in the shape of the pattern. -/

theorem mAgent_sound {l ag : List Char} (h : mAgent l = some ag) :
    ∃ rest, l = ag ++ '"' :: rest ∧ ag.all isDotChar = true := by
  obtain ⟨⟨a, r⟩, hmem, hfa⟩ := firstSome_eq_some h
  simp only [Option.some.injEq] at hfa
  obtain ⟨heq, hall⟩ := (mem_starSplits _ _ _ _ _).mp hmem
  subst hfa
  exact ⟨r, by simpa using heq, hall⟩

theorem mTime_sound {l t ag : List Char} (h : mTime l = some (t, ag)) :
    ∃ r, l = t ++ ' ' :: '"' :: r ∧ t ≠ [] ∧ t.all isDigitChar = true ∧
      mAgent r = some ag := by
  obtain ⟨⟨a, r⟩, hmem, hfa⟩ := firstSome_eq_some h
  rw [Option.map_eq_some'] at hfa
  obtain ⟨ag', hag, heq2⟩ := hfa
  obtain ⟨ha, hag2⟩ := Prod.mk.injEq .. ▸ heq2
  obtain ⟨heq, hne, hall⟩ := (mem_plusSplits _ _ _ _ _).mp hmem
  subst ha; subst hag2
  exact ⟨r, by simpa using heq, hne, hall, hag⟩

theorem mCode_sound {l c t ag : List Char} (h : mCode l = some (c, t, ag)) :
    ∃ r, l = c ++ ' ' :: r ∧ c ≠ [] ∧ c.all isDigitChar = true ∧
      mTime r = some (t, ag) := by
  obtain ⟨⟨a, r⟩, hmem, hfa⟩ := firstSome_eq_some h
  rw [Option.map_eq_some'] at hfa
  obtain ⟨tl, htl, heq2⟩ := hfa
  obtain ⟨ha, htl2⟩ := Prod.mk.injEq .. ▸ heq2
  obtain ⟨heq, hne, hall⟩ := (mem_plusSplits _ _ _ _ _).mp hmem
  subst ha
  exact ⟨r, by simpa using heq, hne, hall, htl2 ▸ htl⟩

theorem mVersion_sound {l : List Char} {v c t ag : List Char}
    (h : mVersion l = some (v, c, t, ag)) :
    ∃ r, l = v ++ '"' :: ' ' :: r ∧ isHttpVersion v ∧ mCode r = some (c, t, ag) := by
  rw [mVersion] at h
  cases hd : dropLit ('H' :: 'T' :: 'T' :: 'P' :: '/' :: []) l with
  | none => rw [hd] at h; cases h
  | some r1 =>
    rw [hd] at h
    obtain ⟨⟨d1, r2⟩, hmem1, hf1⟩ := firstSome_eq_some h
    obtain ⟨⟨d2, r3⟩, hmem2, hf2⟩ := firstSome_eq_some hf1
    rw [Option.map_eq_some'] at hf2
    obtain ⟨ct, hct, heq2⟩ := hf2
    obtain ⟨hv, hct2⟩ := Prod.mk.injEq .. ▸ heq2
    obtain ⟨heq1, hne1, hall1⟩ := (mem_plusSplits _ _ _ _ _).mp hmem1
    obtain ⟨heq2', hne2, hall2⟩ := (mem_plusSplits _ _ _ _ _).mp hmem2
    rw [dropLit_eq] at hd
    refine ⟨r3, ?_, ?_, hct2 ▸ hct⟩
    · subst hv
      dsimp only at heq2'
      rw [hd, heq1, heq2']
      simp
    · subst hv
      exact ⟨d1, d2, rfl, hne1, hall1, hne2, hall2⟩

theorem mPath_sound {l : List Char} {p v c t ag : List Char}
    (h : mPath l = some (p, v, c, t, ag)) :
    ∃ r, l = p ++ ' ' :: r ∧ p.all isDotChar = true ∧
      mVersion r = some (v, c, t, ag) := by
  obtain ⟨⟨a, r⟩, hmem, hfa⟩ := firstSome_eq_some h
  rw [Option.map_eq_some'] at hfa
  obtain ⟨vr, hvr, heq2⟩ := hfa
  obtain ⟨ha, hvr2⟩ := Prod.mk.injEq .. ▸ heq2
  obtain ⟨heq, hall⟩ := (mem_starSplits _ _ _ _ _).mp hmem
  subst ha
  exact ⟨r, by simpa using heq, hall, hvr2 ▸ hvr⟩

theorem mVerb_sound {l : List Char} {w p v c t ag : List Char}
    (h : mVerb l = some (w, p, v, c, t, ag)) :
    ∃ r, l = w ++ ' ' :: r ∧ w ≠ [] ∧ w.all isWordChar = true ∧
      mPath r = some (p, v, c, t, ag) := by
  obtain ⟨⟨a, r⟩, hmem, hfa⟩ := firstSome_eq_some h
  rw [Option.map_eq_some'] at hfa
  obtain ⟨pr, hpr, heq2⟩ := hfa
  obtain ⟨ha, hpr2⟩ := Prod.mk.injEq .. ▸ heq2
  obtain ⟨heq, hne, hall⟩ := (mem_plusSplits _ _ _ _ _).mp hmem
  subst ha
  exact ⟨r, by simpa using heq, hne, hall, hpr2 ▸ hpr⟩

theorem mDate_sound {l : List Char} {d w p v c t ag : List Char}
    (h : mDate l = some (d, w, p, v, c, t, ag)) :
    ∃ r, l = d ++ ']' :: ' ' :: '"' :: r ∧ d.all isDotChar = true ∧
      mVerb r = some (w, p, v, c, t, ag) := by
  obtain ⟨⟨a, r⟩, hmem, hfa⟩ := firstSome_eq_some h
  rw [Option.map_eq_some'] at hfa
  obtain ⟨vr, hvr, heq2⟩ := hfa
  obtain ⟨ha, hvr2⟩ := Prod.mk.injEq .. ▸ heq2
  obtain ⟨heq, hall⟩ := (mem_starSplits _ _ _ _ _).mp hmem
  subst ha
  exact ⟨r, by simpa using heq, hall, hvr2 ▸ hvr⟩

theorem mUser_sound {l : List Char} {u d w p v c t ag : List Char}
    (h : mUser l = some (u, d, w, p, v, c, t, ag)) :
    ∃ r, l = u ++ ' ' :: '[' :: r ∧ u.all isDotChar = true ∧
      mDate r = some (d, w, p, v, c, t, ag) := by
  obtain ⟨⟨a, r⟩, hmem, hfa⟩ := firstSome_eq_some h
  rw [Option.map_eq_some'] at hfa
  obtain ⟨dr, hdr, heq2⟩ := hfa
  obtain ⟨ha, hdr2⟩ := Prod.mk.injEq .. ▸ heq2
  obtain ⟨heq, hall⟩ := (mem_starSplits _ _ _ _ _).mp hmem
  subst ha
  exact ⟨r, by simpa using heq, hall, hdr2 ▸ hdr⟩

theorem mAddr_sound {l : List Char} {a0 u d w p v c t ag : List Char}
    (h : mAddr l = some (a0, u, d, w, p, v, c, t, ag)) :
    ∃ r, l = a0 ++ ' ' :: '-' :: ' ' :: r ∧ a0.all isDotChar = true ∧
      mUser r = some (u, d, w, p, v, c, t, ag) := by
  obtain ⟨⟨a, r⟩, hmem, hfa⟩ := firstSome_eq_some h
  rw [Option.map_eq_some'] at hfa
  obtain ⟨ur, hur, heq2⟩ := hfa
  obtain ⟨ha, hur2⟩ := Prod.mk.injEq .. ▸ heq2
  obtain ⟨heq, hall⟩ := (mem_starSplits _ _ _ _ _).mp hmem
  subst ha
  exact ⟨r, by simpa using heq, hall, hur2 ▸ hur⟩

/-- A successful match consumes a prefix of the input in the shape of the
pattern, with all per-field constraints satisfied. -/
theorem matchLine_sound {l : List Char} {f : RawFields} (h : matchLine l = some f) :
    ∃ rest, l = renderRaw f ++ rest ∧ goodFields f := by
  rw [matchLine, Option.map_eq_some'] at h
  obtain ⟨x, hx, hf⟩ := h
  obtain ⟨a0, u, d, w, p, v, c, t, ag⟩ := x
  subst hf
  obtain ⟨r1, he1, hall1, h1⟩ := mAddr_sound hx
  obtain ⟨r2, he2, hall2, h2⟩ := mUser_sound h1
  obtain ⟨r3, he3, hall3, h3⟩ := mDate_sound h2
  obtain ⟨r4, he4, hne4, hall4, h4⟩ := mVerb_sound h3
  obtain ⟨r5, he5, hall5, h5⟩ := mPath_sound h4
  obtain ⟨r6, he6, hv6, h6⟩ := mVersion_sound h5
  obtain ⟨r7, he7, hne7, hall7, h7⟩ := mCode_sound h6
  obtain ⟨r8, he8, hne8, hall8, h8⟩ := mTime_sound h7
  obtain ⟨r9, he9, hall9⟩ := mAgent_sound h8
  refine ⟨r9, ?_, hall1, hall2, hall3, hne4, hall4, hall5, hv6, hne7, hall7, hne8, hall8, hall9⟩
  rw [he1, he2, he3, he4, he5, he6, he7, he8, he9]
  simp [renderRaw]

/-! ## Completeness of the matcher layers: any input that begins with a
pattern-shaped prefix matches. -/

theorem mAgent_complete {ag : List Char} (rest : List Char)
    (hall : ag.all isDotChar = true) : (mAgent (ag ++ '"' :: rest)).isSome := by
  have hmem : (ag, rest) ∈ starSplits isDotChar ['"'] (ag ++ '"' :: rest) :=
    (mem_starSplits _ _ _ _ _).mpr ⟨rfl, hall⟩
  exact firstSome_isSome hmem (by simp)

theorem mTime_complete {t ag : List Char} (rest : List Char) (hne : t ≠ [])
    (hall : t.all isDigitChar = true) (hag : ag.all isDotChar = true) :
    (mTime (t ++ ' ' :: '"' :: (ag ++ '"' :: rest))).isSome := by
  have hmem : (t, ag ++ '"' :: rest) ∈
      plusSplits isDigitChar (' ' :: '"' :: []) (t ++ ' ' :: '"' :: (ag ++ '"' :: rest)) :=
    (mem_plusSplits _ _ _ _ _).mpr ⟨rfl, hne, hall⟩
  refine firstSome_isSome hmem ?_
  simpa [Option.isSome_map'] using mAgent_complete rest hag

theorem mCode_complete {c t ag : List Char} (rest : List Char)
    (hnc : c ≠ []) (hc : c.all isDigitChar = true) (hnt : t ≠ [])
    (ht : t.all isDigitChar = true) (hag : ag.all isDotChar = true) :
    (mCode (c ++ ' ' :: (t ++ ' ' :: '"' :: (ag ++ '"' :: rest)))).isSome := by
  have hmem : (c, t ++ ' ' :: '"' :: (ag ++ '"' :: rest)) ∈
      plusSplits isDigitChar [' '] (c ++ ' ' :: (t ++ ' ' :: '"' :: (ag ++ '"' :: rest))) :=
    (mem_plusSplits _ _ _ _ _).mpr ⟨rfl, hnc, hc⟩
  refine firstSome_isSome hmem ?_
  simpa [Option.isSome_map'] using mTime_complete rest hnt ht hag

theorem mVersion_complete {d1 d2 c t ag : List Char} (rest : List Char)
    (hn1 : d1 ≠ []) (h1 : d1.all isDigitChar = true)
    (hn2 : d2 ≠ []) (h2 : d2.all isDigitChar = true)
    (hnc : c ≠ []) (hc : c.all isDigitChar = true) (hnt : t ≠ [])
    (ht : t.all isDigitChar = true) (hag : ag.all isDotChar = true) :
    (mVersion (('H' :: 'T' :: 'T' :: 'P' :: '/' :: (d1 ++ '.' :: d2)) ++ '"' :: ' ' ::
      (c ++ ' ' :: (t ++ ' ' :: '"' :: (ag ++ '"' :: rest))))).isSome := by
  rw [mVersion]
  have hd : dropLit ('H' :: 'T' :: 'T' :: 'P' :: '/' :: [])
      (('H' :: 'T' :: 'T' :: 'P' :: '/' :: (d1 ++ '.' :: d2)) ++ '"' :: ' ' ::
        (c ++ ' ' :: (t ++ ' ' :: '"' :: (ag ++ '"' :: rest)))) =
      some ((d1 ++ '.' :: d2) ++ '"' :: ' ' ::
        (c ++ ' ' :: (t ++ ' ' :: '"' :: (ag ++ '"' :: rest)))) := by
    rw [dropLit_eq]
    simp
  rw [hd]
  have hmem1 : (d1, d2 ++ '"' :: ' ' :: (c ++ ' ' :: (t ++ ' ' :: '"' :: (ag ++ '"' :: rest)))) ∈
      plusSplits isDigitChar ['.'] ((d1 ++ '.' :: d2) ++ '"' :: ' ' ::
        (c ++ ' ' :: (t ++ ' ' :: '"' :: (ag ++ '"' :: rest)))) := by
    refine (mem_plusSplits _ _ _ _ _).mpr ⟨?_, hn1, h1⟩
    simp
  refine firstSome_isSome hmem1 ?_
  dsimp only
  have hmem2 : (d2, c ++ ' ' :: (t ++ ' ' :: '"' :: (ag ++ '"' :: rest))) ∈
      plusSplits isDigitChar ('"' :: ' ' :: []) (d2 ++ '"' :: ' ' ::
        (c ++ ' ' :: (t ++ ' ' :: '"' :: (ag ++ '"' :: rest)))) :=
    (mem_plusSplits _ _ _ _ _).mpr ⟨rfl, hn2, h2⟩
  refine firstSome_isSome hmem2 ?_
  simpa [Option.isSome_map'] using mCode_complete rest hnc hc hnt ht hag

theorem mPath_complete {p v c t ag : List Char} (rest : List Char)
    (hp : p.all isDotChar = true) (hv : isHttpVersion v)
    (hnc : c ≠ []) (hc : c.all isDigitChar = true) (hnt : t ≠ [])
    (ht : t.all isDigitChar = true) (hag : ag.all isDotChar = true) :
    (mPath (p ++ ' ' :: (v ++ '"' :: ' ' ::
      (c ++ ' ' :: (t ++ ' ' :: '"' :: (ag ++ '"' :: rest)))))).isSome := by
  have hmem : (p, v ++ '"' :: ' ' :: (c ++ ' ' :: (t ++ ' ' :: '"' :: (ag ++ '"' :: rest)))) ∈
      starSplits isDotChar [' '] (p ++ ' ' :: (v ++ '"' :: ' ' ::
        (c ++ ' ' :: (t ++ ' ' :: '"' :: (ag ++ '"' :: rest))))) :=
    (mem_starSplits _ _ _ _ _).mpr ⟨rfl, hp⟩
  refine firstSome_isSome hmem ?_
  obtain ⟨d1, d2, rfl, hn1, h1, hn2, h2⟩ := hv
  simpa [Option.isSome_map'] using
    mVersion_complete rest hn1 h1 hn2 h2 hnc hc hnt ht hag

theorem mVerb_complete {w p v c t ag : List Char} (rest : List Char)
    (hnw : w ≠ []) (hw : w.all isWordChar = true)
    (hp : p.all isDotChar = true) (hv : isHttpVersion v)
    (hnc : c ≠ []) (hc : c.all isDigitChar = true) (hnt : t ≠ [])
    (ht : t.all isDigitChar = true) (hag : ag.all isDotChar = true) :
    (mVerb (w ++ ' ' :: (p ++ ' ' :: (v ++ '"' :: ' ' ::
      (c ++ ' ' :: (t ++ ' ' :: '"' :: (ag ++ '"' :: rest))))))).isSome := by
  have hmem : (w, p ++ ' ' :: (v ++ '"' :: ' ' ::
      (c ++ ' ' :: (t ++ ' ' :: '"' :: (ag ++ '"' :: rest))))) ∈
      plusSplits isWordChar [' '] (w ++ ' ' :: (p ++ ' ' :: (v ++ '"' :: ' ' ::
        (c ++ ' ' :: (t ++ ' ' :: '"' :: (ag ++ '"' :: rest)))))) :=
    (mem_plusSplits _ _ _ _ _).mpr ⟨rfl, hnw, hw⟩
  refine firstSome_isSome hmem ?_
  simpa [Option.isSome_map'] using mPath_complete rest hp hv hnc hc hnt ht hag

theorem mDate_complete {d w p v c t ag : List Char} (rest : List Char)
    (hd : d.all isDotChar = true)
    (hnw : w ≠ []) (hw : w.all isWordChar = true)
    (hp : p.all isDotChar = true) (hv : isHttpVersion v)
    (hnc : c ≠ []) (hc : c.all isDigitChar = true) (hnt : t ≠ [])
    (ht : t.all isDigitChar = true) (hag : ag.all isDotChar = true) :
    (mDate (d ++ ']' :: ' ' :: '"' :: (w ++ ' ' :: (p ++ ' ' :: (v ++ '"' :: ' ' ::
      (c ++ ' ' :: (t ++ ' ' :: '"' :: (ag ++ '"' :: rest)))))))).isSome := by
  have hmem : (d, w ++ ' ' :: (p ++ ' ' :: (v ++ '"' :: ' ' ::
      (c ++ ' ' :: (t ++ ' ' :: '"' :: (ag ++ '"' :: rest)))))) ∈
      starSplits isDotChar (']' :: ' ' :: '"' :: [])
        (d ++ ']' :: ' ' :: '"' :: (w ++ ' ' :: (p ++ ' ' :: (v ++ '"' :: ' ' ::
          (c ++ ' ' :: (t ++ ' ' :: '"' :: (ag ++ '"' :: rest))))))) :=
    (mem_starSplits _ _ _ _ _).mpr ⟨rfl, hd⟩
  refine firstSome_isSome hmem ?_
  simpa [Option.isSome_map'] using mVerb_complete rest hnw hw hp hv hnc hc hnt ht hag

theorem mUser_complete {u d w p v c t ag : List Char} (rest : List Char)
    (hu : u.all isDotChar = true) (hd : d.all isDotChar = true)
    (hnw : w ≠ []) (hw : w.all isWordChar = true)
    (hp : p.all isDotChar = true) (hv : isHttpVersion v)
    (hnc : c ≠ []) (hc : c.all isDigitChar = true) (hnt : t ≠ [])
    (ht : t.all isDigitChar = true) (hag : ag.all isDotChar = true) :
    (mUser (u ++ ' ' :: '[' :: (d ++ ']' :: ' ' :: '"' :: (w ++ ' ' :: (p ++ ' ' ::
      (v ++ '"' :: ' ' ::
        (c ++ ' ' :: (t ++ ' ' :: '"' :: (ag ++ '"' :: rest))))))))).isSome := by
  have hmem : (u, d ++ ']' :: ' ' :: '"' :: (w ++ ' ' :: (p ++ ' ' :: (v ++ '"' :: ' ' ::
      (c ++ ' ' :: (t ++ ' ' :: '"' :: (ag ++ '"' :: rest))))))) ∈
      starSplits isDotChar (' ' :: '[' :: [])
        (u ++ ' ' :: '[' :: (d ++ ']' :: ' ' :: '"' :: (w ++ ' ' :: (p ++ ' ' ::
          (v ++ '"' :: ' ' ::
            (c ++ ' ' :: (t ++ ' ' :: '"' :: (ag ++ '"' :: rest)))))))) :=
    (mem_starSplits _ _ _ _ _).mpr ⟨rfl, hu⟩
  refine firstSome_isSome hmem ?_
  simpa [Option.isSome_map'] using
    mDate_complete rest hd hnw hw hp hv hnc hc hnt ht hag

/-- Completeness: an input beginning with a pattern-shaped prefix matches. -/
theorem matchLine_complete {l : List Char} {f : RawFields} {rest : List Char}
    (heq : l = renderRaw f ++ rest) (hg : goodFields f) : (matchLine l).isSome := by
  obtain ⟨h1, h2, h3, h4, h5, h6, h7, h8, h9, h10, h11, h12⟩ := hg
  rw [matchLine, Option.isSome_map']
  subst heq
  rw [renderRaw]
  have hmem : (f.remote_addr,
      (f.remote_user ++ ' ' :: '[' ::
        (f.date ++ ']' :: ' ' :: '"' ::
          (f.http_verb ++ ' ' ::
            (f.http_path ++ ' ' ::
              (f.http_version ++ '"' :: ' ' ::
                (f.http_response_code ++ ' ' ::
                  (f.http_response_time_milliseconds ++ ' ' :: '"' ::
                    (f.user_agent_string ++ ['"'])))))))) ++ rest) ∈
      starSplits isDotChar (' ' :: '-' :: ' ' :: [])
        ((f.remote_addr ++ ' ' :: '-' :: ' ' ::
          (f.remote_user ++ ' ' :: '[' ::
            (f.date ++ ']' :: ' ' :: '"' ::
              (f.http_verb ++ ' ' ::
                (f.http_path ++ ' ' ::
                  (f.http_version ++ '"' :: ' ' ::
                    (f.http_response_code ++ ' ' ::
                      (f.http_response_time_milliseconds ++ ' ' :: '"' ::
                        (f.user_agent_string ++ ['"']))))))))) ++ rest) := by
    refine (mem_starSplits _ _ _ _ _).mpr ⟨?_, h1⟩
    simp
  refine firstSome_isSome hmem ?_
  have := mUser_complete rest h2 h3 h4 h5 h6 h7 h8 h9 h10 h11 h12
  simpa [Option.isSome_map', List.append_assoc] using this

/-! ## A trailing newline cannot change the match: `.*`, `\w` and `\d` never
match `'\n'`, none of the pattern's literals contain it, and the pattern has
no end anchor, so an appended `'\n'` only ever extends the unread remainder. -/

theorem dropLit_nl {lit : List Char} (hlit : '\n' ∉ lit) :
    ∀ x, dropLit lit (x ++ ['\n']) = (dropLit lit x).map (· ++ ['\n']) := by
  induction lit with
  | nil => intro x; simp [dropLit]
  | cons a lit ih =>
    intro x
    have ha : a ≠ '\n' := fun h => hlit (h ▸ List.mem_cons_self a lit)
    have hlit' : '\n' ∉ lit := fun h => hlit (List.mem_cons_of_mem _ h)
    cases x with
    | nil =>
      rw [List.nil_append]
      show (if a = '\n' then dropLit lit [] else none) = _
      rw [if_neg ha]
      rfl
    | cons c cs =>
      by_cases h : a = c
      · subst h
        simp [dropLit, ih hlit']
      · simp [dropLit, h]

theorem splitsAsc_nl {P : Char → Bool} (hP : P '\n' = false) {lit : List Char}
    (hlit : '\n' ∉ lit) :
    ∀ l, splitsAsc P lit (l ++ ['\n']) =
      (splitsAsc P lit l).map (fun p => (p.1, p.2 ++ ['\n'])) := by
  intro l
  induction l with
  | nil =>
    rw [List.nil_append]
    have hdl : dropLit lit ['\n'] = (dropLit lit []).map (· ++ ['\n']) := dropLit_nl hlit []
    cases h : dropLit lit [] with
    | none =>
      rw [h, Option.map_none'] at hdl
      simp [splitsAsc, hdl, hP, h]
    | some r =>
      rw [h, Option.map_some'] at hdl
      simp [splitsAsc, hdl, hP, h]
  | cons c cs ih =>
    simp only [List.cons_append, splitsAsc, List.append_eq]
    rw [← List.cons_append, dropLit_nl hlit, List.map_append]
    congr 1
    · cases h : dropLit lit (c :: cs) with
      | none => simp
      | some r => simp
    · by_cases hc : P c
      · rw [if_pos hc, if_pos hc, ih, List.map_map, List.map_map]
        rfl
      · simp [hc]

theorem plusSplitsAsc_nl {P : Char → Bool} (hP : P '\n' = false) {lit : List Char}
    (hlit : '\n' ∉ lit) (l : List Char) :
    plusSplitsAsc P lit (l ++ ['\n']) =
      (plusSplitsAsc P lit l).map (fun p => (p.1, p.2 ++ ['\n'])) := by
  cases l with
  | nil =>
    rw [List.nil_append]
    simp [plusSplitsAsc, hP]
  | cons c cs =>
    simp only [List.cons_append, plusSplitsAsc]
    by_cases hc : P c
    · rw [if_pos hc, if_pos hc, splitsAsc_nl hP hlit, List.map_map, List.map_map]
      rfl
    · simp [hc]

theorem starSplits_nl {P : Char → Bool} (hP : P '\n' = false) {lit : List Char}
    (hlit : '\n' ∉ lit) (l : List Char) :
    starSplits P lit (l ++ ['\n']) =
      (starSplits P lit l).map (fun p => (p.1, p.2 ++ ['\n'])) := by
  rw [starSplits, starSplits, splitsAsc_nl hP hlit, List.map_reverse]

theorem plusSplits_nl {P : Char → Bool} (hP : P '\n' = false) {lit : List Char}
    (hlit : '\n' ∉ lit) (l : List Char) :
    plusSplits P lit (l ++ ['\n']) =
      (plusSplits P lit l).map (fun p => (p.1, p.2 ++ ['\n'])) := by
  rw [plusSplits, plusSplits, plusSplitsAsc_nl hP hlit, List.map_reverse]

theorem firstSome_map {f : β → Option γ} {g : α → β} :
    ∀ xs : List α, firstSome f (xs.map g) = firstSome (fun x => f (g x)) xs := by
  intro xs
  induction xs with
  | nil => rfl
  | cons x xs ih =>
    rw [List.map_cons, firstSome, firstSome]
    cases f (g x) with
    | some b => rfl
    | none => exact ih

theorem firstSome_congr {f g : α → Option β} (h : ∀ x, f x = g x) (xs : List α) :
    firstSome f xs = firstSome g xs := by
  rw [funext h]

theorem mAgent_nl (l : List Char) : mAgent (l ++ ['\n']) = mAgent l := by
  rw [mAgent, mAgent, starSplits_nl rfl (by decide), firstSome_map]

theorem mTime_nl (l : List Char) : mTime (l ++ ['\n']) = mTime l := by
  rw [mTime, mTime, plusSplits_nl rfl (by decide), firstSome_map]
  exact firstSome_congr (fun x => by rw [mAgent_nl]) _

theorem mCode_nl (l : List Char) : mCode (l ++ ['\n']) = mCode l := by
  rw [mCode, mCode, plusSplits_nl rfl (by decide), firstSome_map]
  exact firstSome_congr (fun x => by rw [mTime_nl]) _

theorem mVersion_nl (l : List Char) : mVersion (l ++ ['\n']) = mVersion l := by
  rw [mVersion, mVersion, dropLit_nl (by decide)]
  cases h : dropLit ('H' :: 'T' :: 'T' :: 'P' :: '/' :: []) l with
  | none => rfl
  | some r1 =>
    dsimp only [Option.map_some']
    rw [plusSplits_nl (by decide) (by decide), firstSome_map]
    refine firstSome_congr (fun p1 => ?_) _
    dsimp only
    rw [plusSplits_nl (by decide) (by decide), firstSome_map]
    exact firstSome_congr (fun p2 => by dsimp only; rw [mCode_nl]) _

theorem mPath_nl (l : List Char) : mPath (l ++ ['\n']) = mPath l := by
  rw [mPath, mPath, starSplits_nl rfl (by decide), firstSome_map]
  exact firstSome_congr (fun x => by rw [mVersion_nl]) _

theorem mVerb_nl (l : List Char) : mVerb (l ++ ['\n']) = mVerb l := by
  rw [mVerb, mVerb, plusSplits_nl rfl (by decide), firstSome_map]
  exact firstSome_congr (fun x => by rw [mPath_nl]) _

theorem mDate_nl (l : List Char) : mDate (l ++ ['\n']) = mDate l := by
  rw [mDate, mDate, starSplits_nl rfl (by decide), firstSome_map]
  exact firstSome_congr (fun x => by rw [mVerb_nl]) _

theorem mUser_nl (l : List Char) : mUser (l ++ ['\n']) = mUser l := by
  rw [mUser, mUser, starSplits_nl rfl (by decide), firstSome_map]
  exact firstSome_congr (fun x => by rw [mDate_nl]) _

theorem mAddr_nl (l : List Char) : mAddr (l ++ ['\n']) = mAddr l := by
  rw [mAddr, mAddr, starSplits_nl rfl (by decide), firstSome_map]
  exact firstSome_congr (fun x => by rw [mUser_nl]) _

/-- Appending a trailing newline never changes the Line Matcher's outcome —
neither whether it matches nor any captured field. -/
theorem matchLine_nl (l : List Char) : matchLine (l ++ ['\n']) = matchLine l := by
  rw [matchLine, matchLine, mAddr_nl]

/-! ## Counters -/

theorem processLine_counts (st : PipeState) (l : List Char) :
    (processLine st l).processed = st.processed + 1 ∧
    (processLine st l).ok + (processLine st l).failed = st.ok + st.failed + 1 := by
  cases hm : matchLine l with
  | none =>
    simp [processLine, hm]
    omega
  | some raw =>
    cases hv : validate_entry raw with
    | mk b e =>
      cases b
      · simp [processLine, hm, hv]
        omega
      · simp [processLine, hm, hv]
        omega

theorem foldl_counts (lines : List (List Char)) :
    ∀ st : PipeState,
      (lines.foldl processLine st).processed = st.processed + lines.length ∧
      (lines.foldl processLine st).ok + (lines.foldl processLine st).failed =
        st.ok + st.failed + lines.length := by
  induction lines with
  | nil => intro st; simp
  | cons l ls ih =>
    intro st
    rw [List.foldl_cons]
    obtain ⟨h1, h2⟩ := ih (processLine st l)
    obtain ⟨p1, p2⟩ := processLine_counts st l
    rw [List.length_cons]
    constructor
    · rw [h1, p1]; omega
    · rw [h2, p2]; omega

/-! ## The stable descending sort -/

theorem insOne_perm (gt : γ → γ → Bool) (x : γ) (l : List γ) :
    (insOne gt x l).Perm (x :: l) := by
  induction l with
  | nil => exact List.Perm.refl _
  | cons y ys ih =>
    rw [insOne]
    by_cases h : gt x y
    · rw [if_pos h]
    · rw [if_neg h]
      exact (List.Perm.cons y ih).trans (List.Perm.swap x y ys)

theorem foldl_insOne_perm (gt : γ → γ → Bool) :
    ∀ (l acc : List γ), (l.foldl (fun acc x => insOne gt x acc) acc).Perm (acc ++ l) := by
  intro l
  induction l with
  | nil => intro acc; simp
  | cons x xs ih =>
    intro acc
    rw [List.foldl_cons]
    refine (ih (insOne gt x acc)).trans ?_
    refine (List.Perm.append_right xs (insOne_perm gt x acc)).trans ?_
    exact (List.perm_middle).symm

theorem stableSortDesc_perm (gt : γ → γ → Bool) (l : List γ) :
    (stableSortDesc gt l).Perm l := by
  simpa using foldl_insOne_perm gt l []

theorem stableSortDesc_length (gt : γ → γ → Bool) (l : List γ) :
    (stableSortDesc gt l).length = l.length :=
  (stableSortDesc_perm gt l).length_eq

theorem insOne_pairwise {gt : γ → γ → Bool}
    (hasym : ∀ a b, gt a b = true → gt b a = false)
    (htrans : ∀ x y z, gt x y = true → gt z y = false → gt z x = false)
    (x : γ) {l : List γ} (hl : l.Pairwise (fun a b => gt b a = false)) :
    (insOne gt x l).Pairwise (fun a b => gt b a = false) := by
  induction l with
  | nil => simp [insOne]
  | cons y ys ih =>
    rw [insOne]
    rcases List.pairwise_cons.mp hl with ⟨hy, hys⟩
    by_cases h : gt x y
    · rw [if_pos h]
      refine List.pairwise_cons.mpr ⟨?_, hl⟩
      intro z hz
      rcases List.mem_cons.mp hz with rfl | hz'
      · exact hasym _ _ h
      · exact htrans x y z h (hy z hz')
    · rw [if_neg h]
      have h' : gt x y = false := by simpa using h
      refine List.pairwise_cons.mpr ⟨?_, ih hys⟩
      intro z hz
      rcases List.mem_cons.mp ((insOne_perm gt x ys).mem_iff.mp hz) with rfl | hz'
      · exact h'
      · exact hy z hz'

theorem stableSortDesc_pairwise {gt : γ → γ → Bool}
    (hasym : ∀ a b, gt a b = true → gt b a = false)
    (htrans : ∀ x y z, gt x y = true → gt z y = false → gt z x = false)
    (l : List γ) :
    (stableSortDesc gt l).Pairwise (fun a b => gt b a = false) := by
  rw [stableSortDesc]
  have : ∀ (xs acc : List γ), acc.Pairwise (fun a b => gt b a = false) →
      (xs.foldl (fun acc x => insOne gt x acc) acc).Pairwise (fun a b => gt b a = false) := by
    intro xs
    induction xs with
    | nil => intro acc h; simpa using h
    | cons x xs ih =>
      intro acc h
      rw [List.foldl_cons]
      exact ih _ (insOne_pairwise hasym htrans x h)
  exact this l [] List.Pairwise.nil

/-! ## The tallies track the validated stream -/

theorem ipKeys_bumpIp (tal : List (List Char × Nat)) (a : List Char) :
    ipKeys (bumpIp tal a) =
      if a ∈ ipKeys tal then ipKeys tal else ipKeys tal ++ [a] := by
  induction tal with
  | nil => simp [bumpIp, ipKeys]
  | cons kv rest ih =>
    obtain ⟨k, v⟩ := kv
    rw [bumpIp]
    by_cases h : k = a
    · subst h
      simp [ipKeys]
    · rw [if_neg h]
      have h2 : ¬ a = k := fun he => h he.symm
      simp only [ipKeys, List.map_cons] at ih ⊢
      rw [ih]
      by_cases hm : a ∈ rest.map (fun x => x.1)
      · simp [h2, hm]
      · simp [h2, hm]

theorem pathKeys_addTime (tal : List (List Char × Nat × Int)) (p0 : List Char) (t0 : Int) :
    pathKeys (addTime tal p0 t0) =
      if p0 ∈ pathKeys tal then pathKeys tal else pathKeys tal ++ [p0] := by
  induction tal with
  | nil => simp [addTime, pathKeys]
  | cons kv rest ih =>
    obtain ⟨k, c, t⟩ := kv
    rw [addTime]
    by_cases h : k = p0
    · subst h
      simp [pathKeys]
    · rw [if_neg h]
      have h2 : ¬ p0 = k := fun he => h he.symm
      simp only [pathKeys, List.map_cons] at ih ⊢
      rw [ih]
      by_cases hm : p0 ∈ rest.map (fun x => x.1)
      · simp [h2, hm]
      · simp [h2, hm]

theorem tallyGet_addTime (tal : List (List Char × Nat × Int)) (p0 : List Char) (t0 : Int)
    (p : List Char) :
    tallyGet (addTime tal p0 t0) p =
      if p0 = p then ((tallyGet tal p).1 + 1, (tallyGet tal p).2 + t0)
      else tallyGet tal p := by
  induction tal with
  | nil =>
    by_cases h : p0 = p <;> simp [addTime, tallyGet, h]
  | cons kv rest ih =>
    obtain ⟨k, c, t⟩ := kv
    rw [addTime]
    by_cases hk : k = p0
    · subst hk
      by_cases hp : k = p
      · subst hp
        simp [tallyGet]
      · simp [tallyGet, hp]
    · rw [if_neg hk]
      by_cases hp : k = p
      · subst hp
        have : ¬ p0 = k := fun h => hk h.symm
        simp [tallyGet, this]
      · simp [tallyGet, hp, ih]

theorem tallyGet_not_mem {tal : List (List Char × Nat × Int)} {p : List Char}
    (h : p ∉ pathKeys tal) : tallyGet tal p = (0, 0) := by
  induction tal with
  | nil => rfl
  | cons kv rest ih =>
    obtain ⟨k, c, t⟩ := kv
    have hk : k ≠ p := fun he => h (by simp [pathKeys, he])
    rw [tallyGet, if_neg hk]
    exact ih (fun hm => h (by simp [pathKeys] at hm ⊢; exact Or.inr hm))

theorem mem_tallyGet {tal : List (List Char × Nat × Int)} {p : List Char} {c : Nat} {t : Int}
    (hnd : (pathKeys tal).Nodup) (hmem : (p, c, t) ∈ tal) : tallyGet tal p = (c, t) := by
  induction tal with
  | nil => cases hmem
  | cons kv rest ih =>
    obtain ⟨k, c', t'⟩ := kv
    rcases List.mem_cons.mp hmem with he | hm
    · obtain ⟨rfl, rfl, rfl⟩ := Prod.mk.injEq .. ▸ he
      simp [tallyGet]
    · have hk : k ≠ p := by
        intro he
        subst he
        have : k ∈ pathKeys rest := by
          simp [pathKeys]
          exact ⟨c, t, hm⟩
        simp [pathKeys] at hnd
        exact hnd.1 c t hm
      rw [tallyGet, if_neg hk]
      exact ih (List.Pairwise.sublist (by simp [pathKeys]) hnd) hm

theorem countOf_append_one (es : List (List Char × List Char × Int))
    (x : List Char × List Char × Int) (p : List Char) :
    countOf (es ++ [x]) p = countOf es p + (if x.2.1 = p then 1 else 0) := by
  by_cases h : x.2.1 = p <;> simp [countOf, List.filter_append, h]

theorem totalOf_append_one (es : List (List Char × List Char × Int))
    (x : List Char × List Char × Int) (p : List Char) :
    totalOf (es ++ [x]) p = totalOf es p + (if x.2.1 = p then x.2.2 else 0) := by
  by_cases h : x.2.1 = p <;> simp [totalOf, List.filter_append, h]

theorem countOf_ne_zero (es : List (List Char × List Char × Int)) (p : List Char) :
    countOf es p ≠ 0 ↔ p ∈ es.map (fun x => x.2.1) := by
  constructor
  · intro h
    obtain ⟨x, hx⟩ := List.exists_mem_of_length_pos (Nat.pos_of_ne_zero h)
    obtain ⟨hxe, hxp⟩ := List.mem_filter.mp hx
    exact List.mem_map.mpr ⟨x, hxe, by simpa using hxp⟩
  · intro h hc
    obtain ⟨x, hx, rfl⟩ := List.mem_map.mp h
    have hmem : x ∈ es.filter (fun y => y.2.1 = x.2.1) :=
      List.mem_filter.mpr ⟨hx, by simp⟩
    rw [countOf, List.length_eq_zero] at hc
    rw [hc] at hmem
    cases hmem

theorem pathInv_step {tal : List (List Char × Nat × Int)}
    {es : List (List Char × List Char × Int)} (h : PathInv tal es)
    (x : List Char × List Char × Int) :
    PathInv (addTime tal x.2.1 x.2.2) (es ++ [x]) := by
  obtain ⟨hnd, hget, hkey⟩ := h
  refine ⟨?_, ?_, ?_⟩
  · rw [pathKeys_addTime]
    by_cases hm : x.2.1 ∈ pathKeys tal
    · rw [if_pos hm]; exact hnd
    · rw [if_neg hm]
      simpa [List.nodup_append] using ⟨hnd, hm⟩
  · intro p
    rw [tallyGet_addTime, countOf_append_one, totalOf_append_one, hget p]
    by_cases hp : x.2.1 = p
    · simp [hp, hget p]
    · simp [hp, hget p]
  · intro p hp
    rw [pathKeys_addTime] at hp
    rw [countOf_append_one]
    by_cases hm : x.2.1 ∈ pathKeys tal
    · rw [if_pos hm] at hp
      have := hkey p hp
      omega
    · rw [if_neg hm] at hp
      rcases List.mem_append.mp hp with hp' | hp'
      · have := hkey p hp'
        omega
      · have hpx : x.2.1 = p := by
          have : p = x.2.1 := by simpa using hp'
          exact this.symm
        simp [hpx]

theorem ipKeysInv_step {tal : List (List Char × Nat)} {cs : List (List Char)}
    (h : IpKeysInv tal cs) (a : List Char) :
    IpKeysInv (bumpIp tal a) (cs ++ [a]) := by
  obtain ⟨hnd, hset⟩ := h
  constructor
  · rw [ipKeys_bumpIp]
    by_cases hm : a ∈ ipKeys tal
    · rw [if_pos hm]; exact hnd
    · rw [if_neg hm]
      simpa [List.nodup_append] using ⟨hnd, hm⟩
  · have hmem : ∀ y, y ∈ ipKeys tal ↔ y ∈ cs := fun y => by
      rw [← List.mem_toFinset, hset, List.mem_toFinset]
    rw [ipKeys_bumpIp]
    apply Finset.ext
    intro y
    by_cases hm : a ∈ ipKeys tal
    · rw [if_pos hm]
      simp only [List.mem_toFinset, List.mem_append, List.mem_singleton]
      constructor
      · intro hy
        exact Or.inl ((hmem y).mp hy)
      · rintro (hy | rfl)
        · exact (hmem y).mpr hy
        · exact hm
    · rw [if_neg hm]
      simp only [List.mem_toFinset, List.mem_append, List.mem_singleton]
      constructor
      · rintro (hy | hy)
        · exact Or.inl ((hmem y).mp hy)
        · exact Or.inr hy
      · rintro (hy | rfl)
        · exact Or.inl ((hmem y).mpr hy)
        · exact Or.inr rfl

theorem foldl_pathInv (lines : List (List Char)) :
    ∀ (st : PipeState) (es : List (List Char × List Char × Int)),
      PathInv st.url_load_times es →
      PathInv ((lines.foldl processLine st).url_load_times) (es ++ okEntries lines) := by
  induction lines with
  | nil =>
    intro st es h
    simpa [okEntries] using h
  | cons l ls ih =>
    intro st es h
    rw [List.foldl_cons]
    cases hm : matchLine l with
    | none =>
      have hst : (processLine st l).url_load_times = st.url_load_times := by
        simp [processLine, hm]
      have hok : okEntries (l :: ls) = okEntries ls := by
        simp [okEntries, List.filterMap_cons, hm]
      rw [hok]
      exact ih (processLine st l) es (by rw [hst]; exact h)
    | some raw =>
      cases hv : validate_entry raw with
      | mk b e =>
        cases b
        · have hst : (processLine st l).url_load_times = st.url_load_times := by
            simp [processLine, hm, hv]
          have hok : okEntries (l :: ls) = okEntries ls := by
            simp [okEntries, List.filterMap_cons, hm, hv]
          rw [hok]
          exact ih (processLine st l) es (by rw [hst]; exact h)
        · have hst : (processLine st l).url_load_times =
              addTime st.url_load_times e.http_path e.timeMs := by
            simp [processLine, hm, hv]
          have hok : okEntries (l :: ls) =
              (e.remote_addr.getD [], e.http_path, e.timeMs) :: okEntries ls := by
            simp [okEntries, List.filterMap_cons, hm, hv]
          rw [hok]
          have h2 := pathInv_step h (e.remote_addr.getD [], e.http_path, e.timeMs)
          have h3 := ih (processLine st l)
            (es ++ [(e.remote_addr.getD [], e.http_path, e.timeMs)])
            (by rw [hst]; exact h2)
          simpa using h3

theorem foldl_ipInv (lines : List (List Char)) :
    ∀ (st : PipeState) (cs : List (List Char)),
      IpKeysInv st.nginx_ips cs →
      IpKeysInv ((lines.foldl processLine st).nginx_ips) (cs ++ okClients lines) := by
  induction lines with
  | nil =>
    intro st cs h
    simpa [okClients, okEntries] using h
  | cons l ls ih =>
    intro st cs h
    rw [List.foldl_cons]
    cases hm : matchLine l with
    | none =>
      have hst : (processLine st l).nginx_ips = st.nginx_ips := by
        simp [processLine, hm]
      have hok : okClients (l :: ls) = okClients ls := by
        simp [okClients, okEntries, List.filterMap_cons, hm]
      rw [hok]
      exact ih (processLine st l) cs (by rw [hst]; exact h)
    | some raw =>
      cases hv : validate_entry raw with
      | mk b e =>
        cases b
        · have hst : (processLine st l).nginx_ips = st.nginx_ips := by
            simp [processLine, hm, hv]
          have hok : okClients (l :: ls) = okClients ls := by
            simp [okClients, okEntries, List.filterMap_cons, hm, hv]
          rw [hok]
          exact ih (processLine st l) cs (by rw [hst]; exact h)
        · have hst : (processLine st l).nginx_ips =
              bumpIp st.nginx_ips (e.remote_addr.getD []) := by
            simp [processLine, hm, hv]
          have hok : okClients (l :: ls) = e.remote_addr.getD [] :: okClients ls := by
            simp [okClients, okEntries, List.filterMap_cons, hm, hv]
          rw [hok]
          have h2 := ipKeysInv_step h (e.remote_addr.getD [])
          have h3 := ih (processLine st l) (cs ++ [e.remote_addr.getD []])
            (by rw [hst]; exact h2)
          simpa using h3

/-! ## Structure of `validate_entry` -/

/-- Whatever the outcome, `validate_entry` only ever overwrites the
`remote_addr`, `http_path` and `http_response_time_milliseconds` slots: the
other six slots of the dictionary keep their input values. -/
theorem validate_entry_frame (f : RawFields) :
    (validate_entry f).2.remote_user = f.remote_user ∧
    (validate_entry f).2.date = f.date ∧
    (validate_entry f).2.http_verb = f.http_verb ∧
    (validate_entry f).2.http_version = f.http_version ∧
    (validate_entry f).2.http_response_code = f.http_response_code ∧
    (validate_entry f).2.user_agent_string = f.user_agent_string := by
  rw [validate_entry]
  cases validate_ip_address f.remote_addr with
  | none => exact ⟨rfl, rfl, rfl, rfl, rfl, rfl⟩
  | some a =>
    dsimp only
    split
    · exact ⟨rfl, rfl, rfl, rfl, rfl, rfl⟩
    · split
      · exact ⟨rfl, rfl, rfl, rfl, rfl, rfl⟩
      · split
        · exact ⟨rfl, rfl, rfl, rfl, rfl, rfl⟩
        · split
          · exact ⟨rfl, rfl, rfl, rfl, rfl, rfl⟩
          · split
            · exact ⟨rfl, rfl, rfl, rfl, rfl, rfl⟩
            · exact ⟨rfl, rfl, rfl, rfl, rfl, rfl⟩

/-- What a successful validation guarantees: every check passed, and the
three overwritten slots hold the canonical address, the normalized path and
the non-negative integer time. -/
theorem validate_entry_true {f : RawFields} {e : Entry}
    (h : validate_entry f = (true, e)) :
    (∃ a, validate_ip_address f.remote_addr = some a ∧ e.remote_addr = some a) ∧
    valid_date f.date = true ∧
    f.http_verb ∈ httpVerbs ∧
    e.http_path = normalize_path f.http_path ∧
    response_code_ok f.http_response_code = true ∧
    (∃ n : Int, pyInt? f.http_response_time_milliseconds = some n ∧ 0 ≤ n ∧
      e.http_response_time_milliseconds = PyVal.int n) := by
  rw [validate_entry] at h
  cases haddr : validate_ip_address f.remote_addr with
  | none =>
    rw [haddr] at h
    simp at h
  | some a =>
    rw [haddr] at h
    dsimp only at h
    by_cases h1 : valid_date f.date
    · rw [if_neg (by simpa using h1)] at h
      by_cases h2 : f.http_verb ∈ httpVerbs
      · rw [if_neg (by simpa using h2)] at h
        by_cases h3 : response_code_ok f.http_response_code
        · rw [if_neg (by simpa using h3)] at h
          cases hpi : pyInt? f.http_response_time_milliseconds with
          | none => rw [hpi] at h; simp at h
          | some n =>
            rw [hpi] at h
            dsimp only at h
            by_cases h4 : n < 0
            · rw [if_pos h4] at h; simp at h
            · rw [if_neg h4] at h
              obtain ⟨-, he⟩ := Prod.mk.injEq .. ▸ h
              subst he
              exact ⟨⟨a, rfl, rfl⟩, by simpa using h1, h2, rfl, by simpa using h3,
                ⟨n, rfl, by omega, rfl⟩⟩
        · rw [if_pos (by simpa using h3)] at h
          simp at h
      · rw [if_pos (by simpa using h2)] at h
        simp at h
    · rw [if_pos (by simpa using h1)] at h
      simp at h

/-- The outcome of `validate_entry` does not depend on the raw path: the path
step (decode, strip query) cannot fail. -/
theorem validate_entry_fst_path (f : RawFields) (p : List Char) :
    (validate_entry { f with http_path := p }).1 = (validate_entry f).1 := by
  rw [validate_entry, validate_entry]
  dsimp only
  cases validate_ip_address f.remote_addr with
  | none => rfl
  | some a =>
    dsimp only
    by_cases h1 : valid_date f.date
    · by_cases h2 : f.http_verb ∈ httpVerbs
      · by_cases h3 : response_code_ok f.http_response_code
        · cases hpi : pyInt? f.http_response_time_milliseconds with
          | none => simp [h1, h2, h3, hpi]
          | some n =>
            by_cases h4 : n < 0
            · simp [h1, h2, h3, hpi, h4]
            · simp [h1, h2, h3, hpi, h4]
        · simp [h1, h2, h3]
      · simp [h1, h2]
    · simp [h1]

/-- The response-code rule, spelled out: exactly three characters and an
integer value between 100 and 599. -/
theorem response_code_ok_iff (s : List Char) :
    response_code_ok s = true ↔
      s.length = 3 ∧ ∃ n : Int, pyInt? s = some n ∧ 100 ≤ n ∧ n ≤ 599 := by
  rw [response_code_ok]
  cases h : pyInt? s with
  | none => simp
  | some n =>
    simp only [decide_eq_true_eq, Option.some.injEq]
    constructor
    · rintro ⟨h1, h2, h3⟩
      exact ⟨h3, n, rfl, h1, by omega⟩
    · rintro ⟨h3, m, rfl, h4, h5⟩
      exact ⟨h4, by omega, h3⟩

/-! ## The claims -/

/-- C1: for every input, after the pipeline run
`total_number_of_lines_processed = total_number_of_lines_ok +
total_number_of_lines_failed`, and each handled line adds one to the
processed counter and exactly one to the ok/failed pair, so the equality
holds after every line. -/
theorem claim_counters_partition :
    (∀ (lines : List (List Char)) (maxIps maxPaths : Nat),
      (parse_core lines maxIps maxPaths).total_number_of_lines_processed =
        (parse_core lines maxIps maxPaths).total_number_of_lines_ok +
          (parse_core lines maxIps maxPaths).total_number_of_lines_failed) ∧
    (∀ (st : PipeState) (l : List Char),
      (processLine st l).processed = st.processed + 1 ∧
      (processLine st l).ok + (processLine st l).failed = st.ok + st.failed + 1) := by
  constructor
  · intro lines maxIps maxPaths
    obtain ⟨h1, h2⟩ := foldl_counts lines ⟨0, 0, 0, [], []⟩
    dsimp only at h1 h2
    show (lines.foldl processLine ⟨0, 0, 0, [], []⟩).processed =
      (lines.foldl processLine ⟨0, 0, 0, [], []⟩).ok +
        (lines.foldl processLine ⟨0, 0, 0, [], []⟩).failed
    omega
  · exact processLine_counts

/-- C2 (the code contradicts it): with the `STATSD_SERVER` environment
variable unset, `os.getenv` returns `None`, `None.split(':')` raises
`AttributeError` inside `start_client`, nothing catches it, and
`parse_nginx_log` never returns its results — for every input whatsoever. -/
theorem claim_statsd_unset_aborts :
    ∀ (lines : List (List Char)) (maxIps maxPaths : Nat),
      parse_nginx_log none lines maxIps maxPaths = Except.error PyError.attributeError := by
  intro lines maxIps maxPaths
  rfl

/-- C3 counterexample: `validate_entry` mutates the record passed to it — on
this (fully valid) input the dictionary after the call differs from the
dictionary before it, with `remote_addr` rewritten in place. -/
theorem claim_validator_mutates_input :
    (validate_entry sampleRaw).2 ≠ sampleRaw.toEntry ∧
    (validate_entry sampleRaw).2.remote_addr = some ("192.168.1.1".toList) ∧
    sampleRaw.toEntry.remote_addr = some ("192.168.001.001".toList) := by
  refine ⟨?_, by decide, by decide⟩
  decide

/-- C3 amended: `validate_entry` is not a pure function of its input — it
overwrites the `remote_addr`, `http_path` and
`http_response_time_milliseconds` slots of the record in place — but it
touches nothing else: the remaining six fields are returned unchanged on
every path, and it has no other effect (no logging, no counters). -/
theorem claim_validator_frame :
    ∀ f : RawFields,
      (validate_entry f).2.remote_user = f.remote_user ∧
      (validate_entry f).2.date = f.date ∧
      (validate_entry f).2.http_verb = f.http_verb ∧
      (validate_entry f).2.http_version = f.http_version ∧
      (validate_entry f).2.http_response_code = f.http_response_code ∧
      (validate_entry f).2.user_agent_string = f.user_agent_string :=
  validate_entry_frame

/-- C4 counterexample: a line with extra content after the closing agent
quote still matches (producing a RawFields record), because `re.match` only
anchors the start of the string; the claim that such a line is a structural
failure is false. -/
theorem claim_matcher_extra_content :
    matchLine ("1.2.3.4 - u [d] \"GET /p HTTP/1.1\" 200 5 \"agent\" EXTRA".toList) =
      some ⟨"1.2.3.4".toList, "u".toList, "d".toList, "GET".toList, "/p".toList,
        "HTTP/1.1".toList, "200".toList, "5".toList, "agent".toList⟩ := by
  decide

/-- C4 amended: the Line Matcher produces a RawFields record iff some
*prefix* of the line conforms to the structural pattern (trailing content
after the closing agent quote, a trailing newline included, is ignored
rather than rejected), and appending a trailing newline never changes the
outcome. -/
theorem claim_matcher_shape :
    ∀ l : List Char,
      ((matchLine l).isSome ↔ ∃ (f : RawFields) (rest : List Char),
        l = renderRaw f ++ rest ∧ goodFields f) ∧
      matchLine (l ++ ['\n']) = matchLine l := by
  intro l
  refine ⟨⟨?_, ?_⟩, matchLine_nl l⟩
  · intro h
    obtain ⟨f, hf⟩ := Option.isSome_iff_exists.mp h
    obtain ⟨rest, heq, hg⟩ := matchLine_sound hf
    exact ⟨f, rest, heq, hg⟩
  · rintro ⟨f, rest, heq, hg⟩
    exact matchLine_complete heq hg

/-- C5 counterexample: the full-form IPv6 address `0:0:0:0:0:0:0:1` is
accepted but re-rendered as the IPv4 string `0.0.0.1` (its integer value is
below `2^32`), not as its IPv6 shorthand `::1`. -/
theorem claim_low_ipv6_renders_ipv4 :
    validate_ip_address ("0:0:0:0:0:0:0:1".toList) = some ("0.0.0.1".toList) ∧
    ipv6Render 1 = "::1".toList ∧
    ("0.0.0.1".toList : List Char) ≠ "::1".toList := by
  refine ⟨by decide, by decide, by decide⟩

/-- C5 amended: address validation accepts exactly the strings that parse as
IPv4 or IPv6, and re-renders the accepted address from its integer value —
values below `2^32` as dotted-quad IPv4 (even for IPv6-notation input),
larger values in canonical IPv6 shorthand.  In particular
`192.168.001.001 → 192.168.1.1`, a full-form IPv6 address with value at
least `2^32` shortens (`2001:0db8:…:0001 → 2001:db8::1`), and non-address
tokens are invalid. -/
theorem claim_ip_validation :
    (∀ a : List Char, (validate_ip_address a).isSome ↔
      ((ipv4Int? a).isSome ∨ (ipv6Int? a).isSome)) ∧
    validate_ip_address ("192.168.001.001".toList) = some ("192.168.1.1".toList) ∧
    validate_ip_address ("2001:0db8:0000:0000:0000:0000:0000:0001".toList) =
      some ("2001:db8::1".toList) ∧
    validate_ip_address ("2001:0db8:85a3:0000:0000:8a2e:0370:7334".toList) =
      some ("2001:db8:85a3::8a2e:370:7334".toList) ∧
    validate_ip_address ("999.999.999.999".toList) = none ∧
    validate_ip_address ("not-an-ip".toList) = none := by
  refine ⟨?_, by decide, by decide, by decide, by decide, by decide⟩
  intro a
  rw [validate_ip_address]
  cases h4 : ipv4Int? a with
  | some n => simp [h4]
  | none =>
    cases h6 : ipv6Int? a with
    | some n => simp [h4, h6]
    | none => simp [h4, h6]

/-- C6: the response-code field of a structurally matched line is valid iff
its source text is exactly 3 characters long and its integer value lies in
[100, 599]; every line that validates passed this check; every code 100–599
in its 3-digit rendering is accepted, while `99`, `0200`, `600`, `099` and
non-numeric text are rejected. -/
theorem claim_response_code_rule :
    (∀ s : List Char, response_code_ok s = true ↔
      (s.length = 3 ∧ ∃ n : Int, pyInt? s = some n ∧ 100 ≤ n ∧ n ≤ 599)) ∧
    (∀ (f : RawFields) (e : Entry), validate_entry f = (true, e) →
      response_code_ok f.http_response_code = true) ∧
    (∀ n : Nat, 100 ≤ n → n ≤ 599 → response_code_ok (Nat.toDigits 10 n) = true) ∧
    response_code_ok ("99".toList) = false ∧
    response_code_ok ("0200".toList) = false ∧
    response_code_ok ("600".toList) = false ∧
    response_code_ok ("099".toList) = false ∧
    response_code_ok ("2x0".toList) = false := by
  refine ⟨response_code_ok_iff, ?_, ?_, by decide, by decide, by decide, by decide, by decide⟩
  · intro f e h
    exact (validate_entry_true h).2.2.2.2.1
  · intro n h1 h2
    have hb : ∀ m : Nat, m < 500 → response_code_ok (Nat.toDigits 10 (100 + m)) = true := by
      decide
    have := hb (n - 100) (by omega)
    rwa [show 100 + (n - 100) = n by omega] at this

/-- C6 witness: the rule applied at concrete codes. -/
theorem claim_response_code_rule_witness :
    response_code_ok (Nat.toDigits 10 302) = true ∧
    response_code_ok ("404".toList) = true :=
  ⟨claim_response_code_rule.2.2.1 302 (by decide) (by decide),
   (claim_response_code_rule.1 ("404".toList)).mpr
     ⟨by decide, 404, by decide, by decide, by decide⟩⟩

/-- C7: on every successful validation the stored path is the raw path
percent-decoded and truncated at the first `?` (this is definitional for the
embedded validator); the outcome of validation never depends on the raw
path, so this step cannot reject a line; and `/a%20b?x=1` normalizes to
`/a b`. -/
theorem claim_path_normalization :
    (∀ (f : RawFields) (e : Entry), validate_entry f = (true, e) →
      e.http_path = (unquote f.http_path).takeWhile (fun c => c ≠ '?')) ∧
    (∀ (f : RawFields) (p : List Char),
      (validate_entry { f with http_path := p }).1 = (validate_entry f).1) ∧
    normalize_path ("/a%20b?x=1".toList) = "/a b".toList := by
  refine ⟨?_, validate_entry_fst_path, by decide⟩
  intro f e h
  exact (validate_entry_true h).2.2.2.1

/-- C7 witness: the sample record's validated path. -/
theorem claim_path_normalization_witness :
    (validate_entry sampleRaw).2.http_path =
      (unquote ("/a%20b?x=1".toList)).takeWhile (fun c => c ≠ '?') :=
  claim_path_normalization.1 sampleRaw (validate_entry sampleRaw).2 (by decide)

/-- C10: a successful validation returns the date, remote user, user agent,
HTTP version (and verb and code text) exactly as captured — the date is
checked but never rewritten — while `remote_addr` is replaced by the
canonical address, `http_path` by the normalized path, and the response time
by its non-negative integer coercion. -/
theorem claim_validated_fields_identity :
    ∀ (f : RawFields) (e : Entry), validate_entry f = (true, e) →
      e.date = f.date ∧ e.remote_user = f.remote_user ∧
      e.user_agent_string = f.user_agent_string ∧ e.http_version = f.http_version ∧
      e.http_verb = f.http_verb ∧ e.http_response_code = f.http_response_code ∧
      (∃ a, validate_ip_address f.remote_addr = some a ∧ e.remote_addr = some a) ∧
      e.http_path = normalize_path f.http_path ∧
      (∃ n : Int, 0 ≤ n ∧ pyInt? f.http_response_time_milliseconds = some n ∧
        e.http_response_time_milliseconds = PyVal.int n) := by
  intro f e h
  obtain ⟨ha, -, -, hp, -, n, hn1, hn2, hn3⟩ := validate_entry_true h
  obtain ⟨h1, h2, h3, h4, h5, h6⟩ := validate_entry_frame f
  rw [h] at h1 h2 h3 h4 h5 h6
  exact ⟨h2, h1, h6, h4, h3, h5, ha, hp, n, hn2, hn1, hn3⟩

/-- C10 witness: the identities at the sample record. -/
theorem claim_validated_fields_identity_witness :
    (validate_entry sampleRaw).2.date = sampleRaw.date ∧
    (validate_entry sampleRaw).2.http_version = sampleRaw.http_version :=
  ⟨(claim_validated_fields_identity sampleRaw (validate_entry sampleRaw).2 (by decide)).1,
   (claim_validated_fields_identity sampleRaw (validate_entry sampleRaw).2 (by decide)).2.2.2.1⟩

/-- The two top-N fields of `parse_core`, unfolded. -/
theorem parse_core_tops (lines : List (List Char)) (maxIps maxPaths : Nat) :
    (parse_core lines maxIps maxPaths).top_client_ips =
      (stableSortDesc (fun a b => decide (b.2 < a.2))
        ((lines.foldl processLine ⟨0, 0, 0, [], []⟩).nginx_ips)).take maxIps ∧
    (parse_core lines maxIps maxPaths).top_path_avg_seconds =
      (stableSortDesc (fun a b => decide (b.2 < a.2))
        (((lines.foldl processLine ⟨0, 0, 0, [], []⟩).url_load_times).map
          (fun q => (q.1, avgHundredths q.2.2 q.2.1)))).take maxPaths :=
  ⟨rfl, rfl⟩

/-- The fold starting from the empty state satisfies the client-keys
invariant against the validated stream. -/
theorem parse_ipInv (lines : List (List Char)) :
    IpKeysInv ((lines.foldl processLine ⟨0, 0, 0, [], []⟩).nginx_ips) (okClients lines) := by
  have h := foldl_ipInv lines ⟨0, 0, 0, [], []⟩ []
    ⟨by simp [ipKeys], by simp [ipKeys]⟩
  simpa using h

/-- The fold starting from the empty state satisfies the path-tally
invariant against the validated stream. -/
theorem parse_pathInv (lines : List (List Char)) :
    PathInv ((lines.foldl processLine ⟨0, 0, 0, [], []⟩).url_load_times)
      (okEntries lines) := by
  have h := foldl_pathInv lines ⟨0, 0, 0, [], []⟩ []
    ⟨by simp [pathKeys], fun q => by simp [tallyGet, countOf, totalOf],
     fun q hq => by simp [pathKeys] at hq⟩
  simpa using h

/-- C9: every path retained in `top_path_avg_seconds` carries exactly
`round(cumulative_ms / count / 1000, 2)` — here in hundredths of a second,
with round-half-to-even on the exact rational — where the count and
cumulative sum range over the valid lines with that path, and such a path
has at least one valid line. -/
theorem claim_avg_latency :
    ∀ (lines : List (List Char)) (maxIps maxPaths : Nat) (p : List Char) (v : Int),
      (p, v) ∈ (parse_core lines maxIps maxPaths).top_path_avg_seconds →
        pathCount lines p ≠ 0 ∧
        v = avgHundredths (pathTotal lines p) (pathCount lines p) := by
  intro lines maxIps maxPaths p v hmem
  rw [(parse_core_tops lines maxIps maxPaths).2] at hmem
  have h2 := (stableSortDesc_perm _ _).mem_iff.mp (List.take_subset _ _ hmem)
  obtain ⟨⟨p', c, t⟩, hmem2, heq⟩ := List.mem_map.mp h2
  obtain ⟨hp, hv⟩ := Prod.mk.injEq .. ▸ heq
  subst hp
  obtain ⟨hnd, hget, hkey⟩ := parse_pathInv lines
  have htg := mem_tallyGet hnd hmem2
  rw [hget p'] at htg
  obtain ⟨hc, ht⟩ := Prod.mk.injEq .. ▸ htg
  constructor
  · refine hkey p' ?_
    exact List.mem_map.mpr ⟨(p', c, t), hmem2, rfl⟩
  · rw [← hv]
    dsimp only
    rw [pathCount, pathTotal, ← hc, ← ht]

/-- C9 witness: two observations of 500 ms and 1500 ms on the same path
yield an average of 1.00 seconds (100 hundredths). -/
theorem claim_avg_latency_witness :
    (("/a".toList, (100 : Int)) ∈ (parse_core [lineA, lineB] 10 10).top_path_avg_seconds) ∧
    pathCount [lineA, lineB] ("/a".toList) ≠ 0 ∧
    (100 : Int) = avgHundredths (pathTotal [lineA, lineB] ("/a".toList))
      (pathCount [lineA, lineB] ("/a".toList)) :=
  ⟨by decide, claim_avg_latency [lineA, lineB] 10 10 ("/a".toList) 100 (by decide)⟩

/-- C8: each top-N output has at most `min(N, number of distinct keys)`
entries, its entries are in descending order of the ranking metric, and a
bound of 0 yields an empty output. -/
theorem claim_topn_bounds :
    ∀ (lines : List (List Char)) (maxIps maxPaths : Nat),
      (parse_core lines maxIps maxPaths).top_client_ips.length ≤
          min maxIps (okClients lines).toFinset.card ∧
      (parse_core lines maxIps maxPaths).top_client_ips.Pairwise
        (fun a b => b.2 ≤ a.2) ∧
      (maxIps = 0 → (parse_core lines maxIps maxPaths).top_client_ips = []) ∧
      (parse_core lines maxIps maxPaths).top_path_avg_seconds.length ≤
          min maxPaths (okPaths lines).toFinset.card ∧
      (parse_core lines maxIps maxPaths).top_path_avg_seconds.Pairwise
        (fun a b => b.2 ≤ a.2) ∧
      (maxPaths = 0 → (parse_core lines maxIps maxPaths).top_path_avg_seconds = []) := by
  intro lines maxIps maxPaths
  obtain ⟨htop1, htop2⟩ := parse_core_tops lines maxIps maxPaths
  obtain ⟨hind, hiset⟩ := parse_ipInv lines
  obtain ⟨hpnd, hpget, hpkey⟩ := parse_pathInv lines
  have hasym : ∀ a b : List Char × Nat,
      decide (b.2 < a.2) = true → decide (a.2 < b.2) = false := by
    intro a b h
    have := of_decide_eq_true h
    exact decide_eq_false (by omega)
  have htrans : ∀ x y z : List Char × Nat, decide (y.2 < x.2) = true →
      decide (y.2 < z.2) = false → decide (x.2 < z.2) = false := by
    intro x y z h1 h2
    have := of_decide_eq_true h1
    have := of_decide_eq_false h2
    exact decide_eq_false (by omega)
  have hasym' : ∀ a b : List Char × Int,
      decide (b.2 < a.2) = true → decide (a.2 < b.2) = false := by
    intro a b h
    have := of_decide_eq_true h
    exact decide_eq_false (by omega)
  have htrans' : ∀ x y z : List Char × Int, decide (y.2 < x.2) = true →
      decide (y.2 < z.2) = false → decide (x.2 < z.2) = false := by
    intro x y z h1 h2
    have := of_decide_eq_true h1
    have := of_decide_eq_false h2
    exact decide_eq_false (by omega)
  refine ⟨?_, ?_, ?_, ?_, ?_, ?_⟩
  · rw [htop1, List.length_take, stableSortDesc_length]
    have hlen : (lines.foldl processLine ⟨0, 0, 0, [], []⟩).nginx_ips.length =
        (okClients lines).toFinset.card := by
      rw [← hiset, List.toFinset_card_of_nodup hind, ipKeys, List.length_map]
    omega
  · rw [htop1]
    refine List.Pairwise.sublist (List.take_sublist _ _) ?_
    refine (stableSortDesc_pairwise hasym htrans _).imp ?_
    intro a b h
    exact Nat.le_of_not_lt (of_decide_eq_false h)
  · intro h0
    rw [htop1, h0, List.take_zero]
  · rw [htop2, List.length_take, stableSortDesc_length, List.length_map]
    have hsets : ((pathKeys ((lines.foldl processLine ⟨0, 0, 0, [], []⟩).url_load_times)).toFinset
        : Finset (List Char)) = (okPaths lines).toFinset := by
      apply Finset.ext
      intro y
      simp only [List.mem_toFinset]
      constructor
      · intro hy
        rw [okPaths, ← countOf_ne_zero]
        exact hpkey y hy
      · intro hy
        rw [okPaths] at hy
        by_contra hny
        have := tallyGet_not_mem hny
        rw [hpget y] at this
        obtain ⟨hc0, -⟩ := Prod.mk.injEq .. ▸ this
        exact (countOf_ne_zero _ _).mpr hy hc0
    have hlen : (lines.foldl processLine ⟨0, 0, 0, [], []⟩).url_load_times.length =
        (okPaths lines).toFinset.card := by
      rw [← hsets, List.toFinset_card_of_nodup hpnd, pathKeys, List.length_map]
    omega
  · rw [htop2]
    refine List.Pairwise.sublist (List.take_sublist _ _) ?_
    refine (stableSortDesc_pairwise hasym' htrans' _).imp ?_
    intro a b h
    exact Int.not_lt.mp (of_decide_eq_false h)
  · intro h0
    rw [htop2, h0, List.take_zero]

/-- C8 witness: the bounds at a concrete two-line input. -/
theorem claim_topn_bounds_witness :
    (parse_core [lineA, lineB] 0 0).top_client_ips = [] ∧
    (parse_core [lineA, lineB] 10 10).top_client_ips.length ≤
      min 10 (okClients [lineA, lineB]).toFinset.card :=
  ⟨(claim_topn_bounds [lineA, lineB] 0 0).2.2.1 rfl,
   (claim_topn_bounds [lineA, lineB] 10 10).1⟩

/-! ## Evaluation checks of the embedded models on concrete inputs -/

example :
    matchLine ("1.2.3.4 - bob [01/Jan/2020:10:00:00 +0000] \"GET /a HTTP/1.1\" 200 5 \"ua\"".toList) =
      some ⟨"1.2.3.4".toList, "bob".toList, "01/Jan/2020:10:00:00 +0000".toList, "GET".toList,
        "/a".toList, "HTTP/1.1".toList, "200".toList, "5".toList, "ua".toList⟩ := by decide

example : matchLine ("not a log line".toList) = none := by decide

example : validate_ip_address ("192.168.001.001".toList) = some ("192.168.1.1".toList) := by decide

example : validate_ip_address ("999.999.999.999".toList) = none := by decide

example : validate_ip_address ("2001:0db8:0000:0000:0000:0000:0000:0001".toList) =
    some ("2001:db8::1".toList) := by decide

example : validate_ip_address ("0:0:0:0:0:0:0:1".toList) = some ("0.0.0.1".toList) := by decide

example : validate_ip_address ("::ffff:1.2.3.4".toList) = some ("::ffff:102:304".toList) := by
  decide

example : validate_ip_address ("not-an-ip".toList) = none := by decide

example : validate_ip_address ("::".toList) = some ("0.0.0.0".toList) := by decide

example : valid_date ("01/Jan/2020:10:00:00 +0000".toList) = true := by decide

example : valid_date ("1/Jan/2020:10:00:00 -0530".toList) = true := by decide

example : valid_date ("31/Feb/2020:10:00:00 +0000".toList) = false := by decide

example : valid_date ("29/Feb/2020:10:00:00 +0000".toList) = true := by decide

example : valid_date ("29/Feb/2019:10:00:00 +0000".toList) = false := by decide

example : valid_date ("01/jan/2020:10:00:00 Z".toList) = true := by decide

example : valid_date ("01/Jan/2020:10:00:00 +2400".toList) = false := by decide

example : valid_date ("01/Jan/2020:23:59:60 +0000".toList) = false := by decide

example : valid_date ("01/Jan/2020:10:00:00".toList) = false := by decide

example : valid_date ("2020-01-01 10:00:00".toList) = false := by decide

example : unquote ("/a%20b".toList) = "/a b".toList := by decide

example : unquote ("%e2%82%ac100".toList) = "€100".toList := by decide

example : unquote ("100%".toList) = "100%".toList := by decide

example : unquote ("%zz%41".toList) = "%zzA".toList := by decide

end NginxLog

